import Mathlib

/-!
Shallow embedding of the tensor transfer core of swift-apis
(Sources/x10/xla_tensor/tensor_util.cpp), together with proofs of the
specified properties of its type mapper, shape/stride utilities, copy
engine, partitioner, component-shape enumeration and tensor hashing.

Machine integers of the source (xla::int64 and friends) are modelled as
Nat/Int; buffers are modelled as flat functions from offsets to values;
the two process-wide toggles (XLA_USE_BF16 and XLA_USE_32BIT_LONG) are
modelled as explicit boolean parameters.
-/

/-- Framework scalar kinds (at::ScalarType), restricted to the supported set. -/
inductive ScalarType where
  | Double
  | Float
  | BFloat16
  | Bool
  | Byte
  | Char
  | Short
  | Int
  | Long
deriving DecidableEq, Repr

/-- XLA primitive element types (xla::PrimitiveType), restricted to the kinds
the transfer core mentions. -/
inductive PrimitiveType where
  | PRED
  | S8
  | U8
  | S16
  | U16
  | S32
  | U32
  | S64
  | U64
  | F32
  | F64
  | BF16
  | C64
  | C128
deriving DecidableEq, Repr

/-- Device hardware kinds (enum DeviceType of device_wrapper.h). -/
inductive DeviceType where
  | CPU
  | GPU
  | TPU
  | REMOTE_TPU
deriving DecidableEq, Repr

/-- swift_xla::Device: a hardware type plus an ordinal. -/
structure Device where
  hw_type : DeviceType
  ordinal : Int
deriving DecidableEq, Repr

/-- The fatal error kinds of the transfer core. -/
inductive XlaError where
  | TypeUnsupported
  | ShapeMismatch
  | BufferSizeMismatch
  | ShapeUnsupported
deriving DecidableEq, Repr

/-- XlaTypeFromTensorType (tensor_util.cpp, lines 64-89): the device-aware raw
mapping used when building source shapes and literal shapes. -/
def XlaTypeFromTensorType (scalar_type : ScalarType) (device : Device) :
    PrimitiveType :=
  match scalar_type with
  | .Double => if device.hw_type ≠ DeviceType.TPU then .F64 else .F32
  | .Float => .F32
  | .BFloat16 => .BF16
  | .Bool => .PRED
  | .Byte => .U8
  | .Char => .S8
  | .Short => .S16
  | .Int => .S32
  | .Long => .S64

/-- TensorTypeToRawXlaType (tensor_util.cpp, lines 714-737): the unpromoted
scalar-to-primitive mapping. -/
def TensorTypeToRawXlaType (scalar_type : ScalarType) : PrimitiveType :=
  match scalar_type with
  | .Double => .F64
  | .Float => .F32
  | .BFloat16 => .BF16
  | .Bool => .PRED
  | .Byte => .U8
  | .Char => .S8
  | .Short => .S16
  | .Int => .S32
  | .Long => .S64

/-- GetDevicePrimitiveType (tensor_util.cpp, lines 739-775).  The two global
toggles UseBF16 and Use32BitLong are passed explicitly. -/
def GetDevicePrimitiveType (useBF16 use32BitLong : Bool)
    (ty : PrimitiveType) (device : Device) : PrimitiveType :=
  match ty with
  | .F64 =>
      if useBF16 then .BF16
      else if device.hw_type ≠ DeviceType.TPU then .F64 else .F32
  | .F32 => if useBF16 then .BF16 else .F32
  | .U8 => if device.hw_type ≠ DeviceType.TPU then .U8 else .U32
  | .S8 => if device.hw_type ≠ DeviceType.TPU then .S8 else .S32
  | .U16 => if device.hw_type ≠ DeviceType.TPU then .U16 else .U32
  | .S16 => if device.hw_type ≠ DeviceType.TPU then .S16 else .S32
  | .S64 => if use32BitLong then .S32 else .S64
  | .U64 => if use32BitLong then .U32 else .U64
  | .C128 => if device.hw_type ≠ DeviceType.TPU then .C128 else .C64
  | t => t

/-- MakeXlaPrimitiveType (tensor_util.cpp, lines 777-801). -/
def MakeXlaPrimitiveType (useBF16 use32BitLong : Bool)
    (scalar_type : ScalarType) (device : Device) : PrimitiveType :=
  match scalar_type with
  | .Double => GetDevicePrimitiveType useBF16 use32BitLong .F64 device
  | .Float => GetDevicePrimitiveType useBF16 use32BitLong .F32 device
  | .BFloat16 => GetDevicePrimitiveType useBF16 use32BitLong .BF16 device
  | .Bool => GetDevicePrimitiveType useBF16 use32BitLong .PRED device
  | .Byte => GetDevicePrimitiveType useBF16 use32BitLong .U8 device
  | .Char => GetDevicePrimitiveType useBF16 use32BitLong .S8 device
  | .Short => GetDevicePrimitiveType useBF16 use32BitLong .S16 device
  | .Int => GetDevicePrimitiveType useBF16 use32BitLong .S32 device
  | .Long => GetDevicePrimitiveType useBF16 use32BitLong .S64 device

/-- GetShapeDimensionType (tensor_util.cpp, lines 803-807). -/
def GetShapeDimensionType (device : Device) : PrimitiveType :=
  if device.hw_type = DeviceType.CPU then .S64 else .S32

/-- The promotion table of section 4.1 of the specification, written from the
words of the spec: if BF16 mode is enabled, F32 and F64 map to BF16; else on
TPU, F64 maps to F32, U8 and U16 map to U32, S8 and S16 map to S32, C128 maps
to C64; if 32-bit-long mode is enabled, S64 maps to S32 and U64 maps to U32;
otherwise the raw mapping is returned unchanged. -/
def specPromotionTable (useBF16 use32BitLong : Bool)
    (raw : PrimitiveType) (device : Device) : PrimitiveType :=
  if useBF16 ∧ (raw = .F32 ∨ raw = .F64) then .BF16
  else if device.hw_type = DeviceType.TPU ∧ raw = .F64 then .F32
  else if device.hw_type = DeviceType.TPU ∧ (raw = .U8 ∨ raw = .U16) then .U32
  else if device.hw_type = DeviceType.TPU ∧ (raw = .S8 ∨ raw = .S16) then .S32
  else if device.hw_type = DeviceType.TPU ∧ raw = .C128 then .C64
  else if use32BitLong ∧ raw = .S64 then .S32
  else if use32BitLong ∧ raw = .U64 then .U32
  else raw

/-- C1: for every supported scalar kind, every device hardware type and
ordinal, and every setting of the BF16 and 32-bit-long toggles,
MakeXlaPrimitiveType agrees with the promotion table of section 4.1 applied
to the raw scalar-to-primitive mapping. -/
theorem C1_make_xla_primitive_matches_promotion_table
    (useBF16 use32BitLong : Bool) (scalar : ScalarType)
    (hw : DeviceType) (ord : Int) :
    MakeXlaPrimitiveType useBF16 use32BitLong scalar ⟨hw, ord⟩ =
      specPromotionTable useBF16 use32BitLong
        (TensorTypeToRawXlaType scalar) ⟨hw, ord⟩ := by
  cases scalar <;> cases hw <;> cases useBF16 <;> cases use32BitLong <;> rfl

/-- TensorTypeFromXlaType (tensor_util.cpp, lines 683-712): the inverse
mapping used when materializing a literal back to a host tensor.  The BF16
case falls through to the F32 case when the BF16 toggle is on. -/
def TensorTypeFromXlaType (useBF16 : Bool) (xla_type : PrimitiveType) :
    Except XlaError ScalarType :=
  match xla_type with
  | .BF16 => if ¬useBF16 then .ok .BFloat16 else .ok .Float
  | .F32 => .ok .Float
  | .F64 => .ok .Double
  | .PRED => .ok .Bool
  | .U8 => .ok .Byte
  | .S8 => .ok .Char
  | .S16 => .ok .Short
  | .U16 => .ok .Short
  | .S32 => .ok .Int
  | .U32 => .ok .Int
  | .S64 => .ok .Long
  | .U64 => .ok .Long
  | .C64 => .error .TypeUnsupported
  | .C128 => .error .TypeUnsupported

/-- An XLA array shape: element type, dimension sizes and layout, the latter
given as the minor-to-major permutation of dimension indices. -/
structure ArrayShape where
  element_type : PrimitiveType
  dims : List Nat
  minor_to_major : List Nat
deriving DecidableEq, Repr

/-- The loop body of ComputeShapeStrides: for each dimension index in
minor-to-major order, record the running stride and multiply it by that
dimension size. -/
def computeShapeStridesAux (dims : List Nat) :
    List Nat → List Nat → Nat → List Nat
  | [], strides, _ => strides
  | d :: rest, strides, stride =>
      computeShapeStridesAux dims rest (strides.set d stride)
        (stride * dims.getD d 0)

/-- ComputeShapeStrides (tensor_util.cpp, lines 489-497): strides for the
declared layout of a shape; the strides vector starts zero-initialized with
one entry per dimension. -/
def ComputeShapeStrides (shape : ArrayShape) : List Nat :=
  computeShapeStridesAux shape.dims shape.minor_to_major
    (List.replicate shape.dims.length 0) 1

theorem getD_set_ne (l : List Nat) (d p v : Nat) (hne : d ≠ p) :
    (l.set d v).getD p 0 = l.getD p 0 := by
  by_cases hp : p < l.length
  · rw [List.getD_eq_getElem _ _ (by simpa using hp), List.getD_eq_getElem _ _ hp,
      List.getElem_set_ne hne]
  · rw [List.getD_eq_default _ _ (by simpa using Nat.le_of_not_lt hp),
      List.getD_eq_default _ _ (Nat.le_of_not_lt hp)]

theorem getD_set_self (l : List Nat) (d v : Nat) (hd : d < l.length) :
    (l.set d v).getD d 0 = v := by
  rw [List.getD_eq_getElem _ _ (by simpa using hd), List.getElem_set_self]

theorem computeShapeStridesAux_getD_not_mem (dims : List Nat) (l : List Nat)
    (strides : List Nat) (stride : Nat) (p : Nat) (hp : p ∉ l) :
    (computeShapeStridesAux dims l strides stride).getD p 0 =
      strides.getD p 0 := by
  induction l generalizing strides stride with
  | nil => rfl
  | cons d rest ih =>
      simp only [List.mem_cons, not_or] at hp
      simp only [computeShapeStridesAux]
      rw [ih _ _ hp.2, getD_set_ne _ _ _ _ (fun h => hp.1 h.symm)]

theorem computeShapeStridesAux_length (dims : List Nat) (l : List Nat)
    (strides : List Nat) (stride : Nat) :
    (computeShapeStridesAux dims l strides stride).length = strides.length := by
  induction l generalizing strides stride with
  | nil => rfl
  | cons d rest ih => simp only [computeShapeStridesAux]; rw [ih, List.length_set]

/-- The value recorded at the k-th minor-to-major entry is the running stride
times the product of the dimension sizes of the earlier entries. -/
theorem computeShapeStridesAux_getD (dims : List Nat) (l : List Nat)
    (strides : List Nat) (stride : Nat) (hnd : l.Nodup)
    (hb : ∀ d ∈ l, d < strides.length) (k : Nat) (hk : k < l.length) :
    (computeShapeStridesAux dims l strides stride).getD (l.getD k 0) 0 =
      stride * ((l.take k).map (fun d => dims.getD d 0)).prod := by
  induction l generalizing strides stride k with
  | nil => exact absurd hk (by simp)
  | cons d rest ih =>
      cases k with
      | zero =>
          simp only [computeShapeStridesAux, List.getD_cons_zero, List.take_zero,
            List.map_nil, List.prod_nil, Nat.mul_one]
          rw [computeShapeStridesAux_getD_not_mem _ _ _ _ d
            (List.nodup_cons.mp hnd).1]
          exact getD_set_self _ _ _ (hb d (by simp))
      | succ k =>
          simp only [computeShapeStridesAux, List.getD_cons_succ,
            List.take_succ_cons, List.map_cons, List.prod_cons]
          rw [ih _ _ (List.nodup_cons.mp hnd).2
            (fun e he => by rw [List.length_set]; exact hb e (by simp [he]))
            k (by simpa using hk)]
          ring

/-- C5: for every shape whose minor-to-major list is duplicate-free with
in-range entries, ComputeShapeStrides assigns stride 1 to the first
minor-to-major entry, and the stride of each subsequent entry is the previous
entry's stride times that dimension's size. -/
theorem C5_compute_shape_strides (shape : ArrayShape)
    (hnd : shape.minor_to_major.Nodup)
    (hb : ∀ d ∈ shape.minor_to_major, d < shape.dims.length) :
    (0 < shape.minor_to_major.length →
      (ComputeShapeStrides shape).getD (shape.minor_to_major.getD 0 0) 0 = 1) ∧
    (∀ k, k + 1 < shape.minor_to_major.length →
      (ComputeShapeStrides shape).getD
          (shape.minor_to_major.getD (k + 1) 0) 0 =
        (ComputeShapeStrides shape).getD (shape.minor_to_major.getD k 0) 0 *
          shape.dims.getD (shape.minor_to_major.getD k 0) 0) := by
  have hb' : ∀ d ∈ shape.minor_to_major,
      d < (List.replicate shape.dims.length (0 : Nat)).length := by
    simpa using hb
  constructor
  · intro h0
    rw [ComputeShapeStrides,
      computeShapeStridesAux_getD _ _ _ _ hnd hb' 0 h0]
    simp
  · intro k hk
    have hk' : k < shape.minor_to_major.length := Nat.lt_of_succ_lt hk
    rw [ComputeShapeStrides,
      computeShapeStridesAux_getD _ _ _ _ hnd hb' (k + 1) hk,
      computeShapeStridesAux_getD _ _ _ _ hnd hb' k hk']
    have h1 : shape.minor_to_major.take (k + 1) =
        shape.minor_to_major.take k ++ [shape.minor_to_major[k]] := by
      rw [List.take_succ, List.getElem?_eq_getElem hk']
      rfl
    have hgetD : shape.minor_to_major.getD k 0 = shape.minor_to_major[k] :=
      List.getD_eq_getElem _ _ hk'
    rw [h1, List.map_append, List.prod_append, hgetD]
    simp [Nat.mul_assoc]

/-- Closed witness for C5 at the shape with dims [2, 3, 4] and layout
[2, 0, 1]. -/
theorem C5_compute_shape_strides_witness :
    (([2, 0, 1] : List Nat).Nodup ∧
      (∀ d ∈ ([2, 0, 1] : List Nat), d < ([2, 3, 4] : List Nat).length)) ∧
    ((0 < ([2, 0, 1] : List Nat).length →
      (ComputeShapeStrides ⟨.F32, [2, 3, 4], [2, 0, 1]⟩).getD
        (([2, 0, 1] : List Nat).getD 0 0) 0 = 1) ∧
    (∀ k, k + 1 < ([2, 0, 1] : List Nat).length →
      (ComputeShapeStrides ⟨.F32, [2, 3, 4], [2, 0, 1]⟩).getD
          (([2, 0, 1] : List Nat).getD (k + 1) 0) 0 =
        (ComputeShapeStrides ⟨.F32, [2, 3, 4], [2, 0, 1]⟩).getD
            (([2, 0, 1] : List Nat).getD k 0) 0 *
          ([2, 3, 4] : List Nat).getD (([2, 0, 1] : List Nat).getD k 0) 0)) :=
  ⟨⟨by decide, by decide⟩,
    C5_compute_shape_strides ⟨.F32, [2, 3, 4], [2, 0, 1]⟩ (by decide) (by decide)⟩

/-- std::swap of two list entries, as used on iter_dims in
GetIterationDimensions. -/
def listSwap (l : List Nat) (i j : Nat) : List Nat :=
  (l.set i (l.getD j 0)).set j (l.getD i 0)

/-- The loop of GetIterationDimensions (tensor_util.cpp, lines 206-215),
walking the remaining minor-to-major entries with their positions while
carrying the current choice index and the current scaled-size threshold.
After a replacement the threshold becomes the replacing dimension's size. -/
def getIterationDimensionsAux (dims : List Nat) :
    List Nat → Nat → Nat → Nat → Nat
  | [], _, index, _ => index
  | dim :: rest, i, index, scaled =>
      if dims.getD dim 0 > scaled then
        getIterationDimensionsAux dims rest (i + 1) i (dims.getD dim 0)
      else
        getIterationDimensionsAux dims rest (i + 1) index scaled

/-- GetIterationDimensions (tensor_util.cpp, lines 196-218): the iteration
dimension order for the strided copy path, taking the given shape's
dimensions and minor-to-major list. -/
def GetIterationDimensions (dims m2m : List Nat) : List Nat :=
  let index := getIterationDimensionsAux dims (m2m.drop 1) 1 0
    (8 * dims.getD (m2m.getD 0 0) 0)
  listSwap m2m 0 index

/-- The iteration-dimension selection exactly as the claim words it: the
walk replaces the inner choice with any dimension whose size exceeds 8 times
the size of the current inner dimension, and the returned list is the
minor-to-major list with the chosen dimension moved to the front. -/
def claimIterDimsWalk (dims m2m : List Nat) :
    List Nat → Nat → Nat → Nat
  | [], _, inner => inner
  | dim :: rest, i, inner =>
      if dims.getD dim 0 > 8 * dims.getD (m2m.getD inner 0) 0 then
        claimIterDimsWalk dims m2m rest (i + 1) i
      else
        claimIterDimsWalk dims m2m rest (i + 1) inner

/-- The claim's described result: chosen dimension moved to the front of the
minor-to-major list. -/
def claimIterationDimensions (dims m2m : List Nat) : List Nat :=
  let inner := claimIterDimsWalk dims m2m (m2m.drop 1) 1 0
  m2m.getD inner 0 :: m2m.eraseIdx inner

/-- C3 counterexample: on dims [1, 9, 10] with layout [0, 1, 2] the code
compares against the running chosen size (not 8 times it) and picks dimension
2 where the claim's walk keeps dimension 1; on dims [1, 1, 9] both pick
dimension 2, but the code swaps it with the front entry, yielding [2, 1, 0],
while the claim's move-to-front yields [2, 0, 1]. -/
theorem C3_counterexample :
    GetIterationDimensions [1, 9, 10] [0, 1, 2] = [2, 1, 0] ∧
    claimIterationDimensions [1, 9, 10] [0, 1, 2] = [1, 0, 2] ∧
    GetIterationDimensions [1, 1, 9] [0, 1, 2] = [2, 1, 0] ∧
    claimIterationDimensions [1, 1, 9] [0, 1, 2] = [2, 0, 1] := by
  decide

/-- Extensional description of the loop: if no remaining entry's size exceeds
the initial threshold, the initial choice is kept; otherwise the result is
the position of the earliest remaining entry of maximal size. -/
theorem getIterationDimensionsAux_spec (dims : List Nat) (rest : List Nat) :
    ∀ i c v : Nat,
      getIterationDimensionsAux dims rest i c v =
        if (rest.map (fun d => dims.getD d 0)).foldr max 0 ≤ v then c
        else i + rest.findIdx (fun d =>
          dims.getD d 0 ==
            (rest.map (fun d => dims.getD d 0)).foldr max 0) := by
  induction rest with
  | nil => intro i c v; simp [getIterationDimensionsAux]
  | cons d rest ih =>
      intro i c v
      simp only [getIterationDimensionsAux, List.map_cons, List.foldr_cons]
      by_cases hdv : dims.getD d 0 > v
      · rw [if_pos hdv, ih]
        have hx : ¬ (max (dims.getD d 0)
            ((rest.map (fun d => dims.getD d 0)).foldr max 0) ≤ v) := by omega
        rw [if_neg hx, List.findIdx_cons]
        by_cases hm : (rest.map (fun d => dims.getD d 0)).foldr max 0 ≤
            dims.getD d 0
        · rw [if_pos hm, Nat.max_eq_left hm]
          simp
        · rw [if_neg hm, Nat.max_eq_right (Nat.le_of_not_le hm)]
          have hne : (dims.getD d 0 ==
              (rest.map (fun d => dims.getD d 0)).foldr max 0) = false := by
            rw [beq_eq_false_iff_ne]; omega
          rw [hne]
          simp only [cond_false]
          omega
      · rw [if_neg hdv, ih]
        by_cases hm : (rest.map (fun d => dims.getD d 0)).foldr max 0 ≤ v
        · have hx : max (dims.getD d 0)
              ((rest.map (fun d => dims.getD d 0)).foldr max 0) ≤ v := by omega
          rw [if_pos hm, if_pos hx]
        · have hx : ¬ (max (dims.getD d 0)
              ((rest.map (fun d => dims.getD d 0)).foldr max 0) ≤ v) := by omega
          rw [if_neg hm, if_neg hx, List.findIdx_cons,
            Nat.max_eq_right (by omega)]
          have hne : (dims.getD d 0 ==
              (rest.map (fun d => dims.getD d 0)).foldr max 0) = false := by
            rw [beq_eq_false_iff_ne]; omega
          rw [hne]
          simp only [cond_false]
          omega

/-- The amended selection: the chosen entry is the first minor-to-major entry
unless some later entry's size exceeds 8 times the first entry's size, in
which case it is the earliest later entry of maximal size. -/
def amendedIterDimsChoice (dims m2m : List Nat) : Nat :=
  let f := fun d => dims.getD d 0
  let tail := m2m.drop 1
  let m := (tail.map f).foldr max 0
  if m ≤ 8 * f (m2m.getD 0 0) then 0
  else 1 + tail.findIdx (fun d => f d == m)

/-- C3 amended: for every dimension list and minor-to-major list, the
iteration-dimension selection keeps the first minor-to-major entry as inner
dimension unless a later entry's size exceeds 8 times the first entry's size,
in which case the earliest later entry of maximal size is chosen; the
returned list is the minor-to-major list with the first entry and the chosen
entry swapped. -/
theorem C3_iteration_dimensions_amended (dims m2m : List Nat) :
    GetIterationDimensions dims m2m =
      listSwap m2m 0 (amendedIterDimsChoice dims m2m) := by
  unfold GetIterationDimensions amendedIterDimsChoice
  rw [getIterationDimensionsAux_spec]

/-- C6: TensorTypeFromXlaType returns BFloat16 for BF16 exactly when the BF16
toggle is off and Float for BF16 when it is on; it maps S16 and U16 to Short,
S32 and U32 to Int, and S64 and U64 to Long. -/
theorem C6_tensor_type_from_xla_type (b : Bool) :
    (TensorTypeFromXlaType b .BF16 = .ok .BFloat16 ↔ b = false) ∧
    (TensorTypeFromXlaType b .BF16 = .ok .Float ↔ b = true) ∧
    TensorTypeFromXlaType b .S16 = .ok .Short ∧
    TensorTypeFromXlaType b .U16 = .ok .Short ∧
    TensorTypeFromXlaType b .S32 = .ok .Int ∧
    TensorTypeFromXlaType b .U32 = .ok .Int ∧
    TensorTypeFromXlaType b .S64 = .ok .Long ∧
    TensorTypeFromXlaType b .U64 = .ok .Long := by
  cases b <;> simp [TensorTypeFromXlaType]

/-- A copy partition (tensor_util.cpp, lines 220-226): built from a dimension
list with base all zeros and limit the full extents. -/
structure CopyPartition where
  base : List Nat
  limit : List Nat
deriving DecidableEq, Repr, Inhabited

/-- The CopyPartition constructor: base zero-initialized with one entry per
dimension, limit a copy of the dimension list. -/
def CopyPartition.ofDimensions (dimensions : List Nat) : CopyPartition :=
  ⟨List.replicate dimensions.length 0, dimensions⟩

/-- The max-dimension search of CreateCopyPartitions (tensor_util.cpp, lines
236-243): max_dim starts at -1 (modelled as none) and each index other than
the strided copy dimension replaces it when its size strictly exceeds the
current maximum. -/
def findMaxDim (dimensions : List Nat) (strided : Nat) : Option Nat :=
  (List.range dimensions.length).foldl
    (fun max_dim i =>
      if i ≠ strided ∧ (max_dim = none ∨
          dimensions.getD i 0 > dimensions.getD (max_dim.getD 0) 0)
      then some i else max_dim)
    none

/-- The tiling loop of CreateCopyPartitions (tensor_util.cpp, lines 252-260),
written with explicit fuel; fuel max_dim_size + 1 is enough for the part
sizes the source computes (always at least 1). -/
def partitionLoop (dimensions : List Nat) (max_dim : Nat)
    (max_dim_size part_size : Nat) : Nat → Nat → List CopyPartition
  | 0, _ => []
  | fuel + 1, csize =>
      if csize < max_dim_size then
        let n := min part_size (max_dim_size - csize)
        let p := CopyPartition.ofDimensions dimensions
        ⟨p.base.set max_dim csize, p.limit.set max_dim (csize + n)⟩ ::
          partitionLoop dimensions max_dim max_dim_size part_size fuel
            (csize + n)
      else []

/-- CreateCopyPartitions (tensor_util.cpp, lines 228-262).  The hardware
concurrency read from std::thread is a parameter.  When no index other than
the strided copy dimension exists, the source would index dimensions[-1];
that unreachable case is modelled as the empty list. -/
def CreateCopyPartitions (hardware_concurrency : Nat) (dimensions : List Nat)
    (strided_copy_dimension : Nat) : List CopyPartition :=
  let kMinThreadElements := 100000
  let max_parts := max (hardware_concurrency / 2) 1
  match findMaxDim dimensions strided_copy_dimension with
  | none => []
  | some max_dim =>
      let num_elements := dimensions.prod
      let max_dim_unit_elements := num_elements / dimensions.getD max_dim 0
      let max_dim_size := dimensions.getD max_dim 0
      let part_size := max (max (max_dim_size / max_parts) 1)
        (kMinThreadElements / max_dim_unit_elements)
      partitionLoop dimensions max_dim max_dim_size part_size
        (max_dim_size + 1) 0

/-- The part size exactly as the claim words it, without the clamp to 1:
max(split_dim_size / max_parts, min_elements_per_task / (total /
split_dim_size)). -/
def claimPartSize (hardware_concurrency : Nat) (dimensions : List Nat)
    (split_dim : Nat) : Nat :=
  let max_parts := max (hardware_concurrency / 2) 1
  let split := dimensions.getD split_dim 0
  max (split / max_parts) (100000 / (dimensions.prod / split))

/-- C4 counterexample: with hardware concurrency 8, dimensions [2, 200000]
and inner dimension 1, the split dimension is 0 and the claim's formula gives
part size max(2/4, 100000/200000) = 0, under which tiling the split extent 2
produces no width-1 steps; the code clamps the part size to 1 and produces
two width-1 partitions. -/
theorem C4_counterexample :
    claimPartSize 8 [2, 200000] 0 = 0 ∧
    CreateCopyPartitions 8 [2, 200000] 1 =
      [⟨[0, 0], [1, 200000]⟩, ⟨[1, 0], [2, 200000]⟩] := by
  constructor
  · rfl
  · rfl

/-- The max-dimension search described extensionally: among the indices other
than the strided copy dimension, the earliest one of maximal size (none when
no such index exists). -/
def amendedMaxDim (dimensions : List Nat) (strided : Nat) : Option Nat :=
  ((List.range dimensions.length).filter (fun i => i != strided)).find?
    (fun i => dimensions.getD i 0 ==
      (((List.range dimensions.length).filter (fun i => i != strided)).map
        (fun i => dimensions.getD i 0)).foldr max 0)

theorem findMaxDimFold_some (dimensions : List Nat) (strided : Nat)
    (l : List Nat) : ∀ m : Nat,
    l.foldl
      (fun max_dim i =>
        if i ≠ strided ∧ (max_dim = none ∨
            dimensions.getD i 0 > dimensions.getD (max_dim.getD 0) 0)
        then some i else max_dim)
      (some m) =
    (if ((l.filter (fun i => i != strided)).map
          (fun i => dimensions.getD i 0)).foldr max 0 ≤ dimensions.getD m 0
     then some m
     else (l.filter (fun i => i != strided)).find?
       (fun i => dimensions.getD i 0 ==
         ((l.filter (fun i => i != strided)).map
           (fun i => dimensions.getD i 0)).foldr max 0)) := by
  induction l with
  | nil => intro m; simp
  | cons i l ih =>
      intro m
      by_cases hi : i = strided
      · have hstep : (if i ≠ strided ∧ ((some m : Option Nat) = none ∨
            dimensions.getD i 0 > dimensions.getD ((some m).getD 0) 0)
            then some i else some m) = some m := by
          rw [if_neg]; intro h; exact h.1 hi
        have hfil : (i :: l).filter (fun i => i != strided) =
            l.filter (fun i => i != strided) := by
          simp [List.filter_cons, hi]
        rw [List.foldl_cons, hstep, hfil, ih]
      · have hfil : (i :: l).filter (fun i => i != strided) =
            i :: l.filter (fun i => i != strided) := by
          simp [List.filter_cons, hi]
        rw [List.foldl_cons, hfil]
        by_cases hgt : dimensions.getD i 0 > dimensions.getD m 0
        · have hstep : (if i ≠ strided ∧ ((some m : Option Nat) = none ∨
              dimensions.getD i 0 > dimensions.getD ((some m).getD 0) 0)
              then some i else some m) = some i := by
            rw [if_pos ⟨hi, Or.inr hgt⟩]
          rw [hstep, ih]
          simp only [List.map_cons, List.foldr_cons]
          have hx : ¬ (max (dimensions.getD i 0)
              (((l.filter (fun i => i != strided)).map
                (fun i => dimensions.getD i 0)).foldr max 0) ≤
              dimensions.getD m 0) := by omega
          rw [if_neg hx, List.find?_cons]
          by_cases hm : ((l.filter (fun i => i != strided)).map
              (fun i => dimensions.getD i 0)).foldr max 0 ≤ dimensions.getD i 0
          · rw [if_pos hm, Nat.max_eq_left hm]
            simp
          · rw [if_neg hm, Nat.max_eq_right (Nat.le_of_not_le hm)]
            have hne : (dimensions.getD i 0 ==
                ((l.filter (fun i => i != strided)).map
                  (fun i => dimensions.getD i 0)).foldr max 0) = false := by
              rw [beq_eq_false_iff_ne]; omega
            rw [hne]
        · have hstep : (if i ≠ strided ∧ ((some m : Option Nat) = none ∨
              dimensions.getD i 0 > dimensions.getD ((some m).getD 0) 0)
              then some i else some m) = some m := by
            rw [if_neg]; intro h
            rcases h.2 with h2 | h2
            · exact Option.noConfusion h2
            · exact hgt h2
          rw [hstep, ih]
          simp only [List.map_cons, List.foldr_cons]
          by_cases hm : ((l.filter (fun i => i != strided)).map
              (fun i => dimensions.getD i 0)).foldr max 0 ≤ dimensions.getD m 0
          · have hx : max (dimensions.getD i 0)
                (((l.filter (fun i => i != strided)).map
                  (fun i => dimensions.getD i 0)).foldr max 0) ≤
                dimensions.getD m 0 := by omega
            rw [if_pos hm, if_pos hx]
          · have hx : ¬ (max (dimensions.getD i 0)
                (((l.filter (fun i => i != strided)).map
                  (fun i => dimensions.getD i 0)).foldr max 0) ≤
                dimensions.getD m 0) := by omega
            rw [if_neg hm, if_neg hx, List.find?_cons,
              Nat.max_eq_right (by omega)]
            have hne : (dimensions.getD i 0 ==
                ((l.filter (fun i => i != strided)).map
                  (fun i => dimensions.getD i 0)).foldr max 0) = false := by
              rw [beq_eq_false_iff_ne]; omega
            rw [hne]

theorem findMaxDimFold_none (dimensions : List Nat) (strided : Nat)
    (l : List Nat) :
    l.foldl
      (fun max_dim i =>
        if i ≠ strided ∧ (max_dim = none ∨
            dimensions.getD i 0 > dimensions.getD (max_dim.getD 0) 0)
        then some i else max_dim)
      none =
    (l.filter (fun i => i != strided)).find?
      (fun i => dimensions.getD i 0 ==
        ((l.filter (fun i => i != strided)).map
          (fun i => dimensions.getD i 0)).foldr max 0) := by
  induction l with
  | nil => simp
  | cons i l ih =>
      by_cases hi : i = strided
      · have hstep : (if i ≠ strided ∧ ((none : Option Nat) = none ∨
            dimensions.getD i 0 > dimensions.getD ((none : Option Nat).getD 0) 0)
            then some i else none) = none := by
          rw [if_neg]; intro h; exact h.1 hi
        have hfil : (i :: l).filter (fun i => i != strided) =
            l.filter (fun i => i != strided) := by
          simp [List.filter_cons, hi]
        rw [List.foldl_cons, hstep, hfil, ih]
      · have hstep : (if i ≠ strided ∧ ((none : Option Nat) = none ∨
            dimensions.getD i 0 > dimensions.getD ((none : Option Nat).getD 0) 0)
            then some i else none) = some i := by
          rw [if_pos ⟨hi, Or.inl rfl⟩]
        have hfil : (i :: l).filter (fun i => i != strided) =
            i :: l.filter (fun i => i != strided) := by
          simp [List.filter_cons, hi]
        rw [List.foldl_cons, hstep, hfil, findMaxDimFold_some]
        simp only [List.map_cons, List.foldr_cons]
        rw [List.find?_cons]
        by_cases hm : ((l.filter (fun i => i != strided)).map
            (fun i => dimensions.getD i 0)).foldr max 0 ≤ dimensions.getD i 0
        · rw [if_pos hm, Nat.max_eq_left hm]
          simp
        · rw [if_neg hm, Nat.max_eq_right (Nat.le_of_not_le hm)]
          have hne : (dimensions.getD i 0 ==
              ((l.filter (fun i => i != strided)).map
                (fun i => dimensions.getD i 0)).foldr max 0) = false := by
            rw [beq_eq_false_iff_ne]; omega
          rw [hne]

/-- The max-dimension fold of CreateCopyPartitions picks the earliest index
other than the strided copy dimension whose size is maximal. -/
theorem findMaxDim_eq_amendedMaxDim (dimensions : List Nat) (strided : Nat) :
    findMaxDim dimensions strided = amendedMaxDim dimensions strided := by
  unfold findMaxDim amendedMaxDim
  exact findMaxDimFold_none dimensions strided _

/-- Tiling of the interval [csize, D) by steps of size s (with explicit
fuel): each step spans min s (D - csize). -/
def tileIntervals (D s : Nat) : Nat → Nat → List (Nat × Nat)
  | 0, _ => []
  | fuel + 1, csize =>
      if csize < D then
        let n := min s (D - csize)
        (csize, csize + n) :: tileIntervals D s fuel (csize + n)
      else []

/-- The partition loop builds exactly the tiling intervals of the split
dimension, each installed into a full-extent partition. -/
theorem partitionLoop_eq_tile (dimensions : List Nat) (max_dim D s : Nat) :
    ∀ fuel csize,
      partitionLoop dimensions max_dim D s fuel csize =
        (tileIntervals D s fuel csize).map (fun iv =>
          (⟨(List.replicate dimensions.length 0).set max_dim iv.1,
            dimensions.set max_dim iv.2⟩ : CopyPartition)) := by
  intro fuel
  induction fuel with
  | zero => intro csize; rfl
  | succ fuel ih =>
      intro csize
      by_cases h : csize < D
      · simp only [partitionLoop, tileIntervals, if_pos h, List.map_cons, ih,
          CopyPartition.ofDimensions]
      · simp only [partitionLoop, tileIntervals, if_neg h, List.map_nil]

/-- CreateCopyPartitions as amended: select the earliest non-inner dimension
of maximal size as split dimension; with max_parts = max(1, hc / 2) and
min_elements_per_task = 100000, compute part_size = max(max(split_size /
max_parts, 1), 100000 / (total / split_size)); tile the split extent by
part_size, every partition spanning the full extent of each non-split
dimension. -/
def amendedCopyPartitions (hardware_concurrency : Nat) (dimensions : List Nat)
    (strided : Nat) : List CopyPartition :=
  match amendedMaxDim dimensions strided with
  | none => []
  | some split =>
      let max_parts := max (hardware_concurrency / 2) 1
      let split_size := dimensions.getD split 0
      let part_size := max (max (split_size / max_parts) 1)
        (100000 / (dimensions.prod / split_size))
      (tileIntervals split_size part_size (split_size + 1) 0).map (fun iv =>
        (⟨(List.replicate dimensions.length 0).set split iv.1,
          dimensions.set split iv.2⟩ : CopyPartition))

/-- C4 amended: for every hardware concurrency, dimension list and inner
dimension, the copy partitioner selects the earliest non-inner dimension of
maximal size as split dimension and computes part_size = max(max(
split_dim_size / max_parts, 1), min_elements_per_task / (total /
split_dim_size)) with max_parts = max(1, hardware_concurrency / 2) and
min_elements_per_task = 100000, then tiles the split dimension by part_size,
each partition spanning the full extent of every non-split dimension. -/
theorem C4_create_copy_partitions_amended (hardware_concurrency : Nat)
    (dimensions : List Nat) (strided : Nat) :
    CreateCopyPartitions hardware_concurrency dimensions strided =
      amendedCopyPartitions hardware_concurrency dimensions strided := by
  unfold CreateCopyPartitions amendedCopyPartitions
  rw [findMaxDim_eq_amendedMaxDim]
  cases amendedMaxDim dimensions strided with
  | none => rfl
  | some split => exact partitionLoop_eq_tile dimensions split _ _ _ 0

/-- A list of intervals forms a chain tiling [csize, D): each interval starts
where the previous ended, is non-empty, stays within D, and the chain ends
exactly at D. -/
def intervalChain (D : Nat) : Nat → List (Nat × Nat) → Prop
  | csize, [] => csize = D
  | csize, iv :: rest =>
      iv.1 = csize ∧ csize < iv.2 ∧ iv.2 ≤ D ∧ intervalChain D iv.2 rest

theorem tileIntervals_chain (D s : Nat) (hs : 1 ≤ s) :
    ∀ fuel csize, csize ≤ D → D - csize ≤ fuel →
      intervalChain D csize (tileIntervals D s fuel csize) := by
  intro fuel
  induction fuel with
  | zero =>
      intro csize hle hf
      have : csize = D := by omega
      simpa [tileIntervals, intervalChain] using this
  | succ fuel ih =>
      intro csize hle hf
      by_cases h : csize < D
      · have hn : 1 ≤ min s (D - csize) := by omega
        have hnD : csize + min s (D - csize) ≤ D := by omega
        simp only [tileIntervals, if_pos h]
        refine ⟨rfl, by omega, hnD, ?_⟩
        exact ih _ hnD (by omega)
      · have : csize = D := by omega
        simpa [tileIntervals, if_neg h, intervalChain] using this

theorem intervalChain_mem_bounds (D : Nat) :
    ∀ (l : List (Nat × Nat)) (c : Nat), intervalChain D c l →
      ∀ iv ∈ l, c ≤ iv.1 ∧ iv.1 < iv.2 ∧ iv.2 ≤ D := by
  intro l
  induction l with
  | nil => intro c _ iv hiv; exact absurd hiv (by simp)
  | cons hd rest ih =>
      intro c hch iv hiv
      obtain ⟨h1, h2, h3, h4⟩ := hch
      rcases List.mem_cons.mp hiv with h | h
      · subst h; exact ⟨Nat.le_of_eq h1.symm, by omega, h3⟩
      · have := ih hd.2 h4 iv h
        exact ⟨by omega, this.2.1, this.2.2⟩

theorem intervalChain_pairwise (D : Nat) :
    ∀ (l : List (Nat × Nat)) (c : Nat), intervalChain D c l →
      l.Pairwise (fun a b => a.2 ≤ b.1) := by
  intro l
  induction l with
  | nil => intro c _; exact List.Pairwise.nil
  | cons hd rest ih =>
      intro c hch
      obtain ⟨h1, h2, h3, h4⟩ := hch
      exact List.Pairwise.cons
        (fun b hb => (intervalChain_mem_bounds D rest hd.2 h4 b hb).1)
        (ih hd.2 h4)

theorem intervalChain_adjacent (D : Nat) :
    ∀ (l : List (Nat × Nat)) (c : Nat), intervalChain D c l →
      l.Chain' (fun a b => a.2 = b.1) := by
  intro l
  induction l with
  | nil => intro c _; exact List.chain'_nil
  | cons hd rest ih =>
      intro c hch
      obtain ⟨h1, h2, h3, h4⟩ := hch
      cases rest with
      | nil => exact List.chain'_singleton hd
      | cons hd2 rest2 =>
          refine List.Chain'.cons ?_ (ih hd.2 h4)
          exact h4.1.symm

theorem intervalChain_cover (D : Nat) :
    ∀ (l : List (Nat × Nat)) (c : Nat), intervalChain D c l →
      ∀ x, c ≤ x → x < D → ∃ iv ∈ l, iv.1 ≤ x ∧ x < iv.2 := by
  intro l
  induction l with
  | nil =>
      intro c hch x hcx hxD
      simp only [intervalChain] at hch
      omega
  | cons hd rest ih =>
      intro c hch x hcx hxD
      obtain ⟨h1, h2, h3, h4⟩ := hch
      by_cases hx : x < hd.2
      · exact ⟨hd, by simp, by omega, hx⟩
      · obtain ⟨iv, hiv, hb⟩ := ih hd.2 h4 x (by omega) hxD
        exact ⟨iv, by simp [hiv], hb⟩

theorem intervalChain_getLast (D : Nat) :
    ∀ (l : List (Nat × Nat)) (c : Nat), intervalChain D c l →
      ∀ iv, l.getLast? = some iv → iv.2 = D := by
  intro l
  induction l with
  | nil => intro c _ iv h; exact absurd h (by simp)
  | cons hd rest ih =>
      intro c hch iv h
      obtain ⟨h1, h2, h3, h4⟩ := hch
      cases rest with
      | nil =>
          simp only [List.getLast?_singleton, Option.some.injEq] at h
          subst h; exact h4
      | cons hd2 rest2 =>
          rw [List.getLast?_cons_cons] at h
          exact ih hd.2 h4 iv h

theorem intervalChain_ne_nil (D : Nat) (l : List (Nat × Nat)) (c : Nat)
    (hch : intervalChain D c l) (hlt : c < D) : l ≠ [] := by
  cases l with
  | nil => exact absurd hch (by simp [intervalChain]; omega)
  | cons hd rest => simp

theorem intervalChain_head (D : Nat) (l : List (Nat × Nat)) (c : Nat)
    (hch : intervalChain D c l) :
    ∀ iv, l.head? = some iv → iv.1 = c := by
  intro iv h
  cases l with
  | nil => exact absurd h (by simp)
  | cons hd rest =>
      simp only [List.head?_cons, Option.some.injEq] at h
      subst h; exact hch.1

theorem foldr_max_mem (l : List Nat) (h : l ≠ []) : l.foldr max 0 ∈ l := by
  induction l with
  | nil => exact absurd rfl h
  | cons a t ih =>
      cases t with
      | nil => simp
      | cons b t2 =>
          have ih2 := ih (by simp)
          simp only [List.foldr_cons] at ih2 ⊢
          by_cases hcmp : max b (List.foldr max 0 t2) ≤ a
          · rw [Nat.max_eq_left hcmp]; exact List.mem_cons_self a _
          · rw [Nat.max_eq_right (Nat.le_of_not_le hcmp)]
            exact List.mem_cons_of_mem a ih2

theorem findMaxDim_exists (dimensions : List Nat) (strided : Nat)
    (hex : ∃ i, i < dimensions.length ∧ i ≠ strided) :
    ∃ md, findMaxDim dimensions strided = some md := by
  rw [findMaxDim_eq_amendedMaxDim]
  unfold amendedMaxDim
  obtain ⟨i, hi, hne⟩ := hex
  have hmem : i ∈ (List.range dimensions.length).filter
      (fun i => i != strided) := by
    rw [List.mem_filter, List.mem_range]
    exact ⟨hi, by simpa using hne⟩
  have hnn : ((List.range dimensions.length).filter (fun i => i != strided)).map
      (fun i => dimensions.getD i 0) ≠ [] := by
    simp only [ne_eq, List.map_eq_nil_iff]
    intro h; rw [h] at hmem; simp at hmem
  have hmx := foldr_max_mem _ hnn
  obtain ⟨c, hcmem, hceq⟩ := List.mem_map.mp hmx
  have hsome : (((List.range dimensions.length).filter
      (fun i => i != strided)).find?
      (fun i => dimensions.getD i 0 ==
        (((List.range dimensions.length).filter (fun i => i != strided)).map
          (fun i => dimensions.getD i 0)).foldr max 0)).isSome := by
    rw [List.find?_isSome]
    exact ⟨c, hcmem, by simp only [beq_iff_eq]; exact hceq⟩
  obtain ⟨md, hmd⟩ := Option.isSome_iff_exists.mp hsome
  exact ⟨md, hmd⟩

theorem findMaxDim_some_mem (dimensions : List Nat) (strided md : Nat)
    (h : findMaxDim dimensions strided = some md) :
    md < dimensions.length ∧ md ≠ strided := by
  rw [findMaxDim_eq_amendedMaxDim] at h
  unfold amendedMaxDim at h
  have hmem := List.mem_of_find?_eq_some h
  rw [List.mem_filter, List.mem_range] at hmem
  exact ⟨hmem.1, by simpa using hmem.2⟩

theorem getD_replicate_zero (r n : Nat) :
    (List.replicate r (0 : Nat)).getD n 0 = 0 := by
  rw [List.getD_eq_getD_get?, List.get?_eq_getElem?]
  exact List.getElem?_getD_replicate_default_eq 0 r n

/-- Unfolding of CreateCopyPartitions once the max-dimension search
succeeds. -/
theorem CreateCopyPartitions_eq_some (hc : Nat) (dims : List Nat)
    (strided md : Nat) (hmd : findMaxDim dims strided = some md) :
    CreateCopyPartitions hc dims strided =
      partitionLoop dims md (dims.getD md 0)
        (max (max (dims.getD md 0 / max (hc / 2) 1) 1)
          (100000 / (dims.prod / dims.getD md 0)))
        (dims.getD md 0 + 1) 0 := by
  simp only [CreateCopyPartitions, hmd]

/-- C10: for every dimension list with positive entries and every inner
(strided copy) dimension such that some other index exists, the partition
list is non-empty; on the selected split dimension every partition is a
non-empty interval, consecutive partitions are adjacent, partitions are
pairwise disjoint, the intervals start at 0, end at the split extent and
jointly cover it; and every partition spans the full extent of each
non-split dimension. -/
theorem C10_create_copy_partitions_invariants (hc : Nat) (dims : List Nat)
    (strided : Nat) (hpos : ∀ d ∈ dims, 0 < d)
    (hex : ∃ i, i < dims.length ∧ i ≠ strided) :
    ∃ md, findMaxDim dims strided = some md ∧ md < dims.length ∧
      md ≠ strided ∧
      ∀ parts, parts = CreateCopyPartitions hc dims strided →
        parts ≠ [] ∧
        (∀ p ∈ parts, p.base.getD md 0 < p.limit.getD md 0) ∧
        parts.Chain' (fun p q => p.limit.getD md 0 = q.base.getD md 0) ∧
        parts.Pairwise (fun p q => p.limit.getD md 0 ≤ q.base.getD md 0) ∧
        (∀ p, parts.head? = some p → p.base.getD md 0 = 0) ∧
        (∀ p, parts.getLast? = some p →
          p.limit.getD md 0 = dims.getD md 0) ∧
        (∀ x, x < dims.getD md 0 →
          ∃ p ∈ parts, p.base.getD md 0 ≤ x ∧ x < p.limit.getD md 0) ∧
        (∀ p ∈ parts, ∀ j, j < dims.length → j ≠ md →
          p.base.getD j 0 = 0 ∧ p.limit.getD j 0 = dims.getD j 0) := by
  obtain ⟨md, hmd⟩ := findMaxDim_exists dims strided hex
  obtain ⟨hmdlt, hmdne⟩ := findMaxDim_some_mem dims strided md hmd
  refine ⟨md, hmd, hmdlt, hmdne, ?_⟩
  intro parts hparts
  have hD : 0 < dims.getD md 0 := by
    apply hpos
    rw [List.getD_eq_getElem _ _ hmdlt]
    exact List.getElem_mem hmdlt
  have hpsz : 1 ≤ max (max (dims.getD md 0 / max (hc / 2) 1) 1)
      (100000 / (dims.prod / dims.getD md 0)) := by omega
  have hch := tileIntervals_chain (dims.getD md 0)
    (max (max (dims.getD md 0 / max (hc / 2) 1) 1)
      (100000 / (dims.prod / dims.getD md 0)))
    hpsz (dims.getD md 0 + 1) 0 (by omega) (by omega)
  rw [CreateCopyPartitions_eq_some hc dims strided md hmd,
    partitionLoop_eq_tile] at hparts
  set ivs := tileIntervals (dims.getD md 0)
    (max (max (dims.getD md 0 / max (hc / 2) 1) 1)
      (100000 / (dims.prod / dims.getD md 0)))
    (dims.getD md 0 + 1) 0 with hivs
  have hbase : ∀ a : Nat,
      ((List.replicate dims.length (0 : Nat)).set md a).getD md 0 = a := by
    intro a
    exact getD_set_self _ _ _ (by simpa using hmdlt)
  have hlimit : ∀ a : Nat, (dims.set md a).getD md 0 = a := by
    intro a
    exact getD_set_self _ _ _ hmdlt
  refine ⟨?_, ?_, ?_, ?_, ?_, ?_, ?_, ?_⟩
  · rw [hparts]
    simp only [ne_eq, List.map_eq_nil_iff]
    exact intervalChain_ne_nil _ _ _ hch hD
  · intro p hp
    rw [hparts] at hp
    obtain ⟨iv, hiv, hgiv⟩ := List.mem_map.mp hp
    rw [← hgiv]
    simp only [hbase, hlimit]
    exact (intervalChain_mem_bounds _ _ _ hch iv hiv).2.1
  · rw [hparts, List.chain'_map]
    exact (intervalChain_adjacent _ _ _ hch).imp (by
      intro a b hab
      simp only [hbase, hlimit]
      exact hab)
  · rw [hparts, List.pairwise_map]
    exact (intervalChain_pairwise _ _ _ hch).imp (by
      intro a b hab
      simp only [hbase, hlimit]
      exact hab)
  · intro p hp
    rw [hparts, List.head?_map] at hp
    obtain ⟨iv, hiv, hgiv⟩ := Option.map_eq_some'.mp hp
    rw [← hgiv]
    simp only [hbase]
    exact intervalChain_head _ _ _ hch iv hiv
  · intro p hp
    rw [hparts, List.getLast?_map] at hp
    obtain ⟨iv, hiv, hgiv⟩ := Option.map_eq_some'.mp hp
    rw [← hgiv]
    simp only [hlimit]
    exact intervalChain_getLast _ _ _ hch iv hiv
  · intro x hx
    obtain ⟨iv, hiv, hb1, hb2⟩ := intervalChain_cover _ _ _ hch x
      (Nat.zero_le x) hx
    refine ⟨⟨(List.replicate dims.length 0).set md iv.1,
      dims.set md iv.2⟩, ?_, ?_, ?_⟩
    · rw [hparts]
      exact List.mem_map_of_mem _ hiv
    · show ((List.replicate dims.length (0 : Nat)).set md iv.1).getD md 0 ≤ x
      rw [hbase]; exact hb1
    · show x < (dims.set md iv.2).getD md 0
      rw [hlimit]; exact hb2
  · intro p hp j hj hjne
    rw [hparts] at hp
    obtain ⟨iv, hiv, hgiv⟩ := List.mem_map.mp hp
    rw [← hgiv]
    constructor
    · simp only
      rw [getD_set_ne _ _ _ _ (fun h => hjne h.symm)]
      exact getD_replicate_zero _ _
    · simp only
      rw [getD_set_ne _ _ _ _ (fun h => hjne h.symm)]

/-- Closed witness for C10 at hardware concurrency 0, dimensions [2, 3] and
inner dimension 0. -/
theorem C10_create_copy_partitions_invariants_witness :
    (∀ d ∈ ([2, 3] : List Nat), 0 < d) ∧
    (∃ i, i < ([2, 3] : List Nat).length ∧ i ≠ 0) ∧
    (∃ md, findMaxDim [2, 3] 0 = some md ∧ md < ([2, 3] : List Nat).length ∧
      md ≠ 0 ∧
      ∀ parts, parts = CreateCopyPartitions 0 [2, 3] 0 →
        parts ≠ [] ∧
        (∀ p ∈ parts, p.base.getD md 0 < p.limit.getD md 0) ∧
        parts.Chain' (fun p q => p.limit.getD md 0 = q.base.getD md 0) ∧
        parts.Pairwise (fun p q => p.limit.getD md 0 ≤ q.base.getD md 0) ∧
        (∀ p, parts.head? = some p → p.base.getD md 0 = 0) ∧
        (∀ p, parts.getLast? = some p →
          p.limit.getD md 0 = ([2, 3] : List Nat).getD md 0) ∧
        (∀ x, x < ([2, 3] : List Nat).getD md 0 →
          ∃ p ∈ parts, p.base.getD md 0 ≤ x ∧ x < p.limit.getD md 0) ∧
        (∀ p ∈ parts, ∀ j, j < ([2, 3] : List Nat).length → j ≠ md →
          p.base.getD j 0 = 0 ∧
            p.limit.getD j 0 = ([2, 3] : List Nat).getD j 0)) :=
  ⟨by decide, ⟨1, by decide, by decide⟩,
    C10_create_copy_partitions_invariants 0 [2, 3] 0 (by decide)
      ⟨1, by decide, by decide⟩⟩

/-- An XLA shape: either an array shape or a tuple of child shapes. -/
inductive XlaShape where
  | array (shape : ArrayShape)
  | tuple (children : List XlaShape)

/-- Shape::IsTuple. -/
def XlaShape.isTuple : XlaShape → Bool
  | .tuple _ => true
  | .array _ => false

/-- The loop of GetComponentShapes over the tuple children: each child is
checked not to be a tuple (XLA_CHECK, modelled as ShapeUnsupported) and
collected in order. -/
def getComponentShapesLoop : List XlaShape → Except XlaError (List XlaShape)
  | [] => .ok []
  | c :: rest =>
      if c.isTuple then .error .ShapeUnsupported
      else do
        let tail ← getComponentShapesLoop rest
        pure (c :: tail)

/-- GetComponentShapes (tensor_util.cpp, lines 646-657): arrays yield the
one-element list of themselves; tuples yield their direct children. -/
def GetComponentShapes : XlaShape → Except XlaError (List XlaShape)
  | .array a => .ok [.array a]
  | .tuple children => getComponentShapesLoop children

/-- C8: component-shape enumeration returns [S] for an array shape S, the
direct children in order for a tuple whose children are all arrays, and
fails with ShapeUnsupported for a tuple containing a tuple child. -/
theorem C8_get_component_shapes :
    (∀ a : ArrayShape,
      GetComponentShapes (.array a) = .ok [.array a]) ∧
    (∀ children : List XlaShape, (∀ c ∈ children, c.isTuple = false) →
      GetComponentShapes (.tuple children) = .ok children) ∧
    (∀ children : List XlaShape, (∃ c ∈ children, c.isTuple = true) →
      GetComponentShapes (.tuple children) = .error .ShapeUnsupported) := by
  refine ⟨fun a => rfl, ?_, ?_⟩
  · intro children h
    show getComponentShapesLoop children = .ok children
    induction children with
    | nil => rfl
    | cons c rest ih =>
        have hc : c.isTuple = false := h c (by simp)
        have hrest := ih (fun d hd => h d (by simp [hd]))
        simp [getComponentShapesLoop, hc, hrest]
  · intro children h
    show getComponentShapesLoop children = .error .ShapeUnsupported
    induction children with
    | nil => obtain ⟨c, hc, _⟩ := h; exact absurd hc (by simp)
    | cons c rest ih =>
        by_cases hc : c.isTuple
        · simp [getComponentShapesLoop, hc]
        · obtain ⟨d, hd, hdt⟩ := h
          rcases List.mem_cons.mp hd with rfl | hd2
          · exact absurd hdt (by simpa using hc)
          · have hrest := ih ⟨d, hd2, hdt⟩
            simp [getComponentShapesLoop, hc, hrest]

/-- Closed witness for C8: an array shape, a tuple of two arrays, and a
tuple containing a tuple. -/
theorem C8_get_component_shapes_witness :
    GetComponentShapes (.array ⟨.F32, [2], [0]⟩) =
      .ok [.array ⟨.F32, [2], [0]⟩] ∧
    ((∀ c ∈ [XlaShape.array ⟨.F32, [2], [0]⟩, XlaShape.array ⟨.S32, [3], [0]⟩],
        c.isTuple = false) ∧
      GetComponentShapes (.tuple [XlaShape.array ⟨.F32, [2], [0]⟩,
          XlaShape.array ⟨.S32, [3], [0]⟩]) =
        .ok [XlaShape.array ⟨.F32, [2], [0]⟩,
          XlaShape.array ⟨.S32, [3], [0]⟩]) ∧
    ((∃ c ∈ [XlaShape.tuple []], c.isTuple = true) ∧
      GetComponentShapes (.tuple [XlaShape.tuple []]) =
        .error .ShapeUnsupported) :=
  ⟨C8_get_component_shapes.1 _,
    ⟨by decide, C8_get_component_shapes.2.1 _ (by decide)⟩,
    ⟨⟨XlaShape.tuple [], by simp, rfl⟩,
      C8_get_component_shapes.2.2 _ ⟨XlaShape.tuple [], by simp, rfl⟩⟩⟩

/-- A host tensor (at::Tensor as the transfer core reads it): a dimension
list, a scalar type tag and a flat element buffer.  Element values are
modelled as integers (bit patterns for the floating kinds). -/
structure HostTensor where
  dims : List Nat
  scalar_type : ScalarType
  buffer : List Int

/-- at::internal::GetSizeof: the byte width of each scalar kind. -/
def GetSizeof : ScalarType → Nat
  | .Bool => 1
  | .Byte => 1
  | .Char => 1
  | .Short => 2
  | .Int => 4
  | .Long => 8
  | .Float => 4
  | .Double => 8
  | .BFloat16 => 2

/-- Modelled from the spec: the in-memory byte image of one buffer element
(the host tensor buffer is contiguous; each element occupies exactly
sizeof(scalar) bytes, rendered little-endian from its bit pattern). -/
def serializeElem (scalar : ScalarType) (v : Int) : List Nat :=
  (List.range (GetSizeof scalar)).map
    (fun i => ((v % (2 ^ (8 * GetSizeof scalar))).toNat / 256 ^ i) % 256)

/-- The contiguous byte image of the whole buffer. -/
def tensorBytes (t : HostTensor) : List Nat :=
  t.buffer.flatMap (serializeElem t.scalar_type)

/-- TensorHash (tensor_util.cpp, lines 619-644): size = buffer().size() *
GetSizeof(scalar_type); the first size bytes of the buffer image are handed
to the byte-hash function (xla::util::DataHash, outside src/, modelled as a
function parameter). -/
def TensorHash (dataHash : List Nat → Nat) (t : HostTensor) : Nat :=
  dataHash ((tensorBytes t).take
    (t.buffer.length * GetSizeof t.scalar_type))

/-- C9: the hash reads exactly element_count times sizeof(scalar) bytes (the
byte image has exactly that many bytes, all of which are passed to the hash
function), and the hash depends only on the scalar kind and buffer content,
not on the tensor's dimension list. -/
theorem C9_tensor_hash (dataHash : List Nat → Nat) (t : HostTensor) :
    (tensorBytes t).length = t.buffer.length * GetSizeof t.scalar_type ∧
    (tensorBytes t).take (t.buffer.length * GetSizeof t.scalar_type) =
      tensorBytes t ∧
    (∀ dims' : List Nat,
      TensorHash dataHash ⟨dims', t.scalar_type, t.buffer⟩ =
        TensorHash dataHash t) := by
  have hlen : (tensorBytes t).length =
      t.buffer.length * GetSizeof t.scalar_type := by
    unfold tensorBytes
    induction t.buffer with
    | nil => simp
    | cons v rest ih =>
        simp only [List.flatMap_cons, List.length_append, List.length_cons, ih]
        simp [serializeElem, Nat.succ_mul, Nat.add_comm]
  exact ⟨hlen, by rw [List.take_of_length_le (by omega)], fun dims' => rfl⟩

/-- The C++ element types the copy kernels are instantiated at.  at_bf16 is
at::BFloat16 (the framework side) and tf_bf16 is tensorflow::bfloat16 (the
backend side); the two are bit-identical 16-bit formats. -/
inductive CType where
  | cbool
  | u8
  | s8
  | s16
  | u16
  | s32
  | u32
  | s64
  | u64
  | f32
  | f64
  | at_bf16
  | tf_bf16
deriving DecidableEq, Repr

/-- sizeof of each kernel element type. -/
def CType.size : CType → Nat
  | .cbool => 1
  | .u8 => 1
  | .s8 => 1
  | .s16 => 2
  | .u16 => 2
  | .at_bf16 => 2
  | .tf_bf16 => 2
  | .s32 => 4
  | .u32 => 4
  | .f32 => 4
  | .s64 => 8
  | .u64 => 8
  | .f64 => 8

/-- NeedCast (tensor_util.cpp, lines 142-153): true exactly for the two
bfloat16 types. -/
def NeedCast : CType → Bool
  | .at_bf16 => true
  | .tf_bf16 => true
  | _ => false

/-- The SType selected by the switch of PopulateTensorBuffer (lines 400-439)
for each supported scalar kind. -/
def ctypeOfScalar : ScalarType → CType
  | .Double => .f64
  | .Float => .f32
  | .BFloat16 => .at_bf16
  | .Bool => .cbool
  | .Byte => .u8
  | .Char => .s8
  | .Short => .s16
  | .Int => .s32
  | .Long => .s64

/-- The element type selected by the switches of TensorToBufferSType (lines
343-394) and MakeTensorFromXlaLiteral (lines 510-538) for each primitive
kind; kinds outside the switch fall to the fatal default. -/
def ctypeOfPrim : PrimitiveType → Option CType
  | .BF16 => some .tf_bf16
  | .F32 => some .f32
  | .F64 => some .f64
  | .PRED => some .cbool
  | .U8 => some .u8
  | .S8 => some .s8
  | .S16 => some .s16
  | .U16 => some .u16
  | .S32 => some .s32
  | .U32 => some .u32
  | .S64 => some .s64
  | .U64 => some .u64
  | .C64 => none
  | .C128 => none

/-- xla primitive byte widths, as used for Literal::size_bytes. -/
def PrimitiveType.byteSize : PrimitiveType → Nat
  | .PRED => 1
  | .S8 => 1
  | .U8 => 1
  | .S16 => 2
  | .U16 => 2
  | .BF16 => 2
  | .S32 => 4
  | .U32 => 4
  | .F32 => 4
  | .S64 => 8
  | .U64 => 8
  | .F64 => 8
  | .C64 => 8
  | .C128 => 16

/-- The element-value mapping of the linear CopyData path (lines 170-194):
the two cross-bfloat16 specializations are CheckedMemcpy raw byte copies
(the identity on bit patterns); every other instantiation converts the value
from the source to the destination element type (std::copy assignment for
CopyDirect, the Caster static casts for CopyCasted), modelled by the cast
parameter. -/
def copyDataElem (cast : CType → CType → Int → Int) (S D : CType) :
    Int → Int :=
  if (S = .at_bf16 ∧ D = .tf_bf16) ∨ (S = .tf_bf16 ∧ D = .at_bf16) then id
  else cast S D

/-- The linear element-wise copy of the fast path: element i of the
destination receives the converted element i of the source, for i below n;
writes happen in increasing order of i. -/
def linearCopy (f : Int → Int) (src : Nat → Int) (dest : Nat → Int) :
    Nat → (Nat → Int)
  | 0 => dest
  | n + 1 => Function.update (linearCopy f src dest n) n (f (src n))

theorem linearCopy_apply (f : Int → Int) (src dest : Nat → Int)
    (n p : Nat) :
    linearCopy f src dest n p = if p < n then f (src p) else dest p := by
  induction n with
  | zero => simp [linearCopy]
  | succ n ih =>
      simp only [linearCopy, Function.update]
      by_cases hp : p = n
      · subst hp; simp
      · simp only [eq_rec_constant, dif_neg hp, ih]
        by_cases h1 : p < n
        · rw [if_pos h1, if_pos (by omega)]
        · rw [if_neg h1, if_neg (by omega)]

/-- GetFlatTensorOffset (tensor_util.cpp, lines 127-135): the flat offset of
an index vector under given strides. -/
def GetFlatTensorOffset (strides indices : List Nat) : Nat :=
  (List.zipWith (fun a b => a * b) indices strides).sum

/-- The loop of StridedCopy, writing k-th element for k below the count, in
increasing k order. -/
def stridedCopyLoop (f : Int → Int) (src : Nat → Int)
    (destBase destStride srcBase srcStride : Nat) :
    Nat → (Nat → Int) → (Nat → Int)
  | 0, dest => dest
  | k + 1, dest =>
      Function.update
        (stridedCopyLoop f src destBase destStride srcBase srcStride k dest)
        (destBase + k * destStride) (f (src (srcBase + k * srcStride)))

/-- StridedCopy (tensor_util.cpp, lines 115-123): n elements with separate
source and destination strides.  The C++ loop advances the source pointer by
source_stride and stops when it reaches source + n * source_stride, so a zero
source stride yields no iterations. -/
def StridedCopy (f : Int → Int) (dest : Nat → Int)
    (destBase destStride : Nat) (src : Nat → Int)
    (srcBase srcStride n : Nat) : Nat → Int :=
  stridedCopyLoop f src destBase destStride srcBase srcStride
    (if srcStride = 0 then 0 else n) dest

/-- The odometer advance of SlicedCopy (tensor_util.cpp, lines 279-286):
positions 1 and up of iter_dims are incremented with carry against the
partition limits, resetting to the partition base; none signals that the
outermost carry overflowed and the copy is complete. -/
def advanceIndices (base limit : List Nat) :
    List Nat → List Nat → Option (List Nat)
  | [], _ => none
  | dim :: restDims, idx =>
      let idx1 := idx.set dim (idx.getD dim 0 + 1)
      if idx1.getD dim 0 < limit.getD dim 0 then some idx1
      else advanceIndices base limit restDims
        (idx1.set dim (base.getD dim 0))

/-- The main loop of SlicedCopy: copy one inner run at the current index
vector, then advance the odometer; fuel bounds the iteration count. -/
def slicedCopyLoop (f : Int → Int) (dimensions : List Nat)
    (src : Nat → Int) (srcStrides destStrides iterDims : List Nat)
    (part : CopyPartition) :
    Nat → List Nat → (Nat → Int) → (Nat → Int)
  | 0, _, dest => dest
  | fuel + 1, indices, dest =>
      let dest1 := StridedCopy f dest
        (GetFlatTensorOffset destStrides indices)
        (destStrides.getD (iterDims.getD 0 0) 0)
        src
        (GetFlatTensorOffset srcStrides indices)
        (srcStrides.getD (iterDims.getD 0 0) 0)
        (dimensions.getD (iterDims.getD 0 0) 0)
      match advanceIndices part.base part.limit (iterDims.drop 1) indices with
      | none => dest1
      | some idx2 =>
          slicedCopyLoop f dimensions src srcStrides destStrides iterDims
            part fuel idx2 dest1

/-- SlicedCopy (tensor_util.cpp, lines 264-288), starting from the partition
base with fuel one more than the product of the partition limits plus one
per dimension (enough for the odometer to exhaust the partition box). -/
def SlicedCopy (f : Int → Int) (dimensions : List Nat) (src : Nat → Int)
    (srcStrides : List Nat) (dest : Nat → Int)
    (destStrides iterDims : List Nat) (part : CopyPartition) : Nat → Int :=
  slicedCopyLoop f dimensions src srcStrides destStrides iterDims part
    (part.limit.foldr (fun a b => (a + 1) * b) 1 + 1) part.base dest

/-- The partitioned strided copy of CopyTensors: the thread-pool dispatch of
the partition tasks (lines 316-324) is modelled as sequential composition of
the partition copies in submission order. -/
def stridedCopyRun (f : Int → Int) (dimensions : List Nat)
    (src : Nat → Int) (srcStrides destStrides iterDims : List Nat)
    (parts : List CopyPartition) (dest : Nat → Int) : Nat → Int :=
  parts.foldl (fun d part =>
    SlicedCopy f dimensions src srcStrides d destStrides iterDims part) dest

/-- CopyTensors (tensor_util.cpp, lines 290-326): check SameDimensions and
the destination byte size; linear copy when the two minor-to-major layouts
agree, else the partitioned strided copy when there are elements to copy. -/
def CopyTensors (cast : CType → CType → Int → Int)
    (hardware_concurrency : Nat) (S D : CType)
    (src : Nat → Int) (src_shape : ArrayShape) (dest : Nat → Int)
    (dest_buffer_size : Nat) (dest_shape : ArrayShape) :
    Except XlaError (Nat → Int) :=
  if src_shape.dims ≠ dest_shape.dims then .error .ShapeMismatch
  else if dest_buffer_size ≠ src_shape.dims.prod * D.size then
    .error .BufferSizeMismatch
  else if src_shape.minor_to_major = dest_shape.minor_to_major then
    .ok (linearCopy (copyDataElem cast S D) src dest src_shape.dims.prod)
  else if 0 < src_shape.dims.prod then
    .ok (stridedCopyRun (fun v => cast S D v) dest_shape.dims src
      (ComputeShapeStrides src_shape) (ComputeShapeStrides dest_shape)
      (GetIterationDimensions dest_shape.dims dest_shape.minor_to_major)
      (CreateCopyPartitions hardware_concurrency dest_shape.dims
        ((GetIterationDimensions dest_shape.dims
          dest_shape.minor_to_major).getD 0 0))
      dest)
  else .ok dest

/-- Modelled from the spec: MakeSwiftTensorLayout (layout_manager.cpp, not
under src/) builds the host-side shape for given dimensions and element
type; the spec states host tensors are contiguous row-major, so the layout
is the row-major minor-to-major permutation [r-1, ..., 0]. -/
def MakeSwiftTensorLayout (dimensions : List Nat) (ty : PrimitiveType) :
    ArrayShape :=
  ⟨ty, dimensions, (List.range dimensions.length).reverse⟩

/-- An array literal: a shape plus a typed buffer. -/
structure Literal where
  shape : ArrayShape
  data : Nat → Int

/-- TensorToBuffer (tensor_util.cpp, lines 328-337): build the source shape
from the tensor and run CopyTensors into the destination buffer. -/
def TensorToBuffer (cast : CType → CType → Int → Int) (hc : Nat)
    (S D : CType) (tensor : HostTensor) (dest_shape : ArrayShape)
    (dest : Nat → Int) (dest_buffer_size : Nat) (device : Device) :
    Except XlaError (Nat → Int) :=
  let src_shape := MakeSwiftTensorLayout tensor.dims
    (XlaTypeFromTensorType tensor.scalar_type device)
  CopyTensors cast hc S D (fun p => tensor.buffer.getD p 0) src_shape dest
    dest_buffer_size dest_shape

/-- TensorToBufferSType (tensor_util.cpp, lines 339-395): dispatch on the
destination element type. -/
def TensorToBufferSType (cast : CType → CType → Int → Int) (hc : Nat)
    (S : CType) (tensor : HostTensor) (dest_shape : ArrayShape)
    (dest : Nat → Int) (dest_buffer_size : Nat) (device : Device) :
    Except XlaError (Nat → Int) :=
  match ctypeOfPrim dest_shape.element_type with
  | some D => TensorToBuffer cast hc S D tensor dest_shape dest
      dest_buffer_size device
  | none => .error .TypeUnsupported

/-- PopulateTensorBuffer (tensor_util.cpp, lines 397-440): dispatch on the
tensor scalar kind. -/
def PopulateTensorBuffer (cast : CType → CType → Int → Int) (hc : Nat)
    (tensor : HostTensor) (dest_shape : ArrayShape) (dest : Nat → Int)
    (dest_buffer_size : Nat) (device : Device) :
    Except XlaError (Nat → Int) :=
  TensorToBufferSType cast hc (ctypeOfScalar tensor.scalar_type) tensor
    dest_shape dest dest_buffer_size device

/-- GetTensorLiteral (tensor_util.cpp, lines 602-617): when no shape is
given, one is computed from the tensor and the device; a literal of that
shape is allocated (zero-filled) and populated through
PopulateTensorBuffer. -/
def GetTensorLiteral (cast : CType → CType → Int → Int) (hc : Nat)
    (tensor : HostTensor) (shape : Option ArrayShape) (device : Device) :
    Except XlaError Literal :=
  let computed_shape := match shape with
    | some s => s
    | none => MakeSwiftTensorLayout tensor.dims
        (XlaTypeFromTensorType tensor.scalar_type device)
  do
    let buf ← PopulateTensorBuffer cast hc tensor computed_shape
      (fun _ => 0)
      (computed_shape.dims.prod * computed_shape.element_type.byteSize)
      device
    pure ⟨computed_shape, buf⟩

/-- XlaLiteralToTensor (tensor_util.cpp, lines 442-457): allocate a host
buffer of the literal's element count, copy from the literal layout to the
host layout, and wrap the buffer with the literal's dimensions. -/
def XlaLiteralToTensor (cast : CType → CType → Int → Int) (hc : Nat)
    (S D : CType) (literal : Literal) (atype : ScalarType) :
    Except XlaError HostTensor :=
  let dimensions := literal.shape.dims
  let swift_shape := MakeSwiftTensorLayout dimensions
    literal.shape.element_type
  let total_elements := swift_shape.dims.prod
  do
    let buf ← CopyTensors cast hc S D literal.data literal.shape
      (fun _ => 0) (total_elements * D.size) swift_shape
    pure ⟨dimensions, atype, (List.range total_elements).map buf⟩

/-- XlaLiteralToTensorHelper (tensor_util.cpp, lines 459-485): dispatch on
the destination scalar kind (all nine are supported). -/
def XlaLiteralToTensorHelper (cast : CType → CType → Int → Int) (hc : Nat)
    (S : CType) (literal : Literal) (dest_element_type : ScalarType) :
    Except XlaError HostTensor :=
  XlaLiteralToTensor cast hc S (ctypeOfScalar dest_element_type) literal
    dest_element_type

/-- MakeTensorFromXlaLiteral (tensor_util.cpp, lines 508-539): dispatch on
the literal element type. -/
def MakeTensorFromXlaLiteral (cast : CType → CType → Int → Int) (hc : Nat)
    (literal : Literal) (dest_element_type : ScalarType) :
    Except XlaError HostTensor :=
  match ctypeOfPrim literal.shape.element_type with
  | some S => XlaLiteralToTensorHelper cast hc S literal dest_element_type
  | none => .error .TypeUnsupported

/-- When source and destination shapes coincide (same dimensions, same
layout), CopyTensors takes the linear fast path. -/
theorem CopyTensors_same_layout (cast : CType → CType → Int → Int)
    (hc : Nat) (S D : CType) (src dest : Nat → Int) (dims : List Nat)
    (prim : PrimitiveType) :
    CopyTensors cast hc S D src (MakeSwiftTensorLayout dims prim) dest
      (dims.prod * D.size) (MakeSwiftTensorLayout dims prim) =
    .ok (linearCopy (copyDataElem cast S D) src dest dims.prod) := by
  unfold CopyTensors
  rw [if_neg (by simp), if_neg (by simp [MakeSwiftTensorLayout]), if_pos rfl]
  rfl

theorem rangeMapGetD (f : Nat → Int) (n p : Nat) (hp : p < n) :
    ((List.range n).map f).getD p 0 = f p := by
  rw [List.getD_eq_getElem _ _ (by simpa using hp)]
  simp

/-- GetTensorLiteral with a null shape: the computed shape is the host
row-major shape at the device-raw primitive type, and the literal buffer is
the linear converted copy of the tensor buffer. -/
theorem GetTensorLiteral_null_shape (cast : CType → CType → Int → Int)
    (hc : Nat) (dims : List Nat) (sc : ScalarType) (buf : List Int)
    (device : Device) (prim : PrimitiveType) (D : CType)
    (hprim : XlaTypeFromTensorType sc device = prim)
    (hD : ctypeOfPrim prim = some D)
    (hsz : prim.byteSize = D.size) :
    GetTensorLiteral cast hc ⟨dims, sc, buf⟩ none device =
      .ok ⟨MakeSwiftTensorLayout dims prim,
        linearCopy (copyDataElem cast (ctypeOfScalar sc) D)
          (fun p => buf.getD p 0) (fun _ => 0) dims.prod⟩ := by
  unfold GetTensorLiteral PopulateTensorBuffer TensorToBufferSType
    TensorToBuffer
  simp only [MakeSwiftTensorLayout, hprim, hD, hsz]
  rw [show (⟨prim, dims, (List.range dims.length).reverse⟩ : ArrayShape) =
    MakeSwiftTensorLayout dims prim from rfl]
  rw [CopyTensors_same_layout]
  rfl

/-- MakeTensorFromXlaLiteral on a literal whose shape is already the host
row-major layout: the source and destination layouts agree, so the result
buffer is the linear converted copy of the literal data. -/
theorem MakeTensorFromXlaLiteral_swift_layout
    (cast : CType → CType → Int → Int) (hc : Nat) (dims : List Nat)
    (prim : PrimitiveType) (S : CType) (dataf : Nat → Int)
    (sc : ScalarType) (hS : ctypeOfPrim prim = some S) :
    MakeTensorFromXlaLiteral cast hc ⟨MakeSwiftTensorLayout dims prim, dataf⟩
      sc =
      .ok ⟨dims, sc, (List.range dims.prod).map
        (linearCopy (copyDataElem cast S (ctypeOfScalar sc)) dataf
          (fun _ => 0) dims.prod)⟩ := by
  unfold MakeTensorFromXlaLiteral XlaLiteralToTensorHelper XlaLiteralToTensor
  have h1 : (MakeSwiftTensorLayout dims prim).element_type = prim := rfl
  have h2 : (MakeSwiftTensorLayout dims prim).dims = dims := rfl
  simp only [h1, h2, hS]
  rw [CopyTensors_same_layout]
  rfl

/-- C2: for every supported scalar kind, dimension list and buffer contents,
on a non-TPU device converting the host tensor to a literal (null shape) and
back with the same destination scalar yields a tensor with the same
dimensions and element-wise equal contents.  The cast parameter models C++
static_cast and is the identity on equal types; the BF16 toggle is not
consulted on this path. -/
theorem C2_tensor_literal_round_trip (cast : CType → CType → Int → Int)
    (hc : Nat) (tensor : HostTensor) (device : Device)
    (hdev : device.hw_type ≠ DeviceType.TPU)
    (hcast : ∀ t v, cast t t v = v) :
    ∃ lit, GetTensorLiteral cast hc tensor none device = .ok lit ∧
      ∃ result, MakeTensorFromXlaLiteral cast hc lit tensor.scalar_type =
          .ok result ∧
        result.dims = tensor.dims ∧
        result.scalar_type = tensor.scalar_type ∧
        ∀ p, p < tensor.dims.prod →
          result.buffer.getD p 0 = tensor.buffer.getD p 0 := by
  obtain ⟨dims, sc, buf⟩ := tensor
  cases sc with
  | Double =>
      have hprim : XlaTypeFromTensorType .Double device = .F64 := by
        simp only [XlaTypeFromTensorType, if_pos hdev]
      refine ⟨_, GetTensorLiteral_null_shape cast hc dims .Double buf device
        .F64 .f64 hprim rfl rfl, _,
        MakeTensorFromXlaLiteral_swift_layout cast hc dims .F64 .f64 _
          .Double rfl, rfl, rfl, ?_⟩
      intro p hp
      rw [rangeMapGetD _ _ _ hp, linearCopy_apply, if_pos hp,
        linearCopy_apply, if_pos hp]
      simp [copyDataElem, ctypeOfScalar, hcast]
  | Float =>
      refine ⟨_, GetTensorLiteral_null_shape cast hc dims .Float buf device
        .F32 .f32 rfl rfl rfl, _,
        MakeTensorFromXlaLiteral_swift_layout cast hc dims .F32 .f32 _
          .Float rfl, rfl, rfl, ?_⟩
      intro p hp
      rw [rangeMapGetD _ _ _ hp, linearCopy_apply, if_pos hp,
        linearCopy_apply, if_pos hp]
      simp [copyDataElem, ctypeOfScalar, hcast]
  | BFloat16 =>
      refine ⟨_, GetTensorLiteral_null_shape cast hc dims .BFloat16 buf
        device .BF16 .tf_bf16 rfl rfl rfl, _,
        MakeTensorFromXlaLiteral_swift_layout cast hc dims .BF16 .tf_bf16 _
          .BFloat16 rfl, rfl, rfl, ?_⟩
      intro p hp
      rw [rangeMapGetD _ _ _ hp, linearCopy_apply, if_pos hp,
        linearCopy_apply, if_pos hp]
      simp [copyDataElem, ctypeOfScalar]
  | Bool =>
      refine ⟨_, GetTensorLiteral_null_shape cast hc dims .Bool buf device
        .PRED .cbool rfl rfl rfl, _,
        MakeTensorFromXlaLiteral_swift_layout cast hc dims .PRED .cbool _
          .Bool rfl, rfl, rfl, ?_⟩
      intro p hp
      rw [rangeMapGetD _ _ _ hp, linearCopy_apply, if_pos hp,
        linearCopy_apply, if_pos hp]
      simp [copyDataElem, ctypeOfScalar, hcast]
  | Byte =>
      refine ⟨_, GetTensorLiteral_null_shape cast hc dims .Byte buf device
        .U8 .u8 rfl rfl rfl, _,
        MakeTensorFromXlaLiteral_swift_layout cast hc dims .U8 .u8 _
          .Byte rfl, rfl, rfl, ?_⟩
      intro p hp
      rw [rangeMapGetD _ _ _ hp, linearCopy_apply, if_pos hp,
        linearCopy_apply, if_pos hp]
      simp [copyDataElem, ctypeOfScalar, hcast]
  | Char =>
      refine ⟨_, GetTensorLiteral_null_shape cast hc dims .Char buf device
        .S8 .s8 rfl rfl rfl, _,
        MakeTensorFromXlaLiteral_swift_layout cast hc dims .S8 .s8 _
          .Char rfl, rfl, rfl, ?_⟩
      intro p hp
      rw [rangeMapGetD _ _ _ hp, linearCopy_apply, if_pos hp,
        linearCopy_apply, if_pos hp]
      simp [copyDataElem, ctypeOfScalar, hcast]
  | Short =>
      refine ⟨_, GetTensorLiteral_null_shape cast hc dims .Short buf device
        .S16 .s16 rfl rfl rfl, _,
        MakeTensorFromXlaLiteral_swift_layout cast hc dims .S16 .s16 _
          .Short rfl, rfl, rfl, ?_⟩
      intro p hp
      rw [rangeMapGetD _ _ _ hp, linearCopy_apply, if_pos hp,
        linearCopy_apply, if_pos hp]
      simp [copyDataElem, ctypeOfScalar, hcast]
  | Int =>
      refine ⟨_, GetTensorLiteral_null_shape cast hc dims .Int buf device
        .S32 .s32 rfl rfl rfl, _,
        MakeTensorFromXlaLiteral_swift_layout cast hc dims .S32 .s32 _
          .Int rfl, rfl, rfl, ?_⟩
      intro p hp
      rw [rangeMapGetD _ _ _ hp, linearCopy_apply, if_pos hp,
        linearCopy_apply, if_pos hp]
      simp [copyDataElem, ctypeOfScalar, hcast]
  | Long =>
      refine ⟨_, GetTensorLiteral_null_shape cast hc dims .Long buf device
        .S64 .s64 rfl rfl rfl, _,
        MakeTensorFromXlaLiteral_swift_layout cast hc dims .S64 .s64 _
          .Long rfl, rfl, rfl, ?_⟩
      intro p hp
      rw [rangeMapGetD _ _ _ hp, linearCopy_apply, if_pos hp,
        linearCopy_apply, if_pos hp]
      simp [copyDataElem, ctypeOfScalar, hcast]

/-- Closed witness for C2: an Int tensor [5, 7] of shape [2] on CPU with the
identity cast. -/
theorem C2_tensor_literal_round_trip_witness :
    ((⟨DeviceType.CPU, 0⟩ : Device).hw_type ≠ DeviceType.TPU) ∧
    (∀ (t : CType) (v : Int), (fun (_ _ : CType) (v : Int) => v) t t v = v) ∧
    (∃ lit, GetTensorLiteral (fun _ _ v => v) 0
        ⟨[2], .Int, [5, 7]⟩ none ⟨DeviceType.CPU, 0⟩ = .ok lit ∧
      ∃ result, MakeTensorFromXlaLiteral (fun _ _ v => v) 0 lit
          (⟨[2], .Int, [5, 7]⟩ : HostTensor).scalar_type = .ok result ∧
        result.dims = (⟨[2], .Int, [5, 7]⟩ : HostTensor).dims ∧
        result.scalar_type = (⟨[2], .Int, [5, 7]⟩ : HostTensor).scalar_type ∧
        ∀ p, p < (⟨[2], .Int, [5, 7]⟩ : HostTensor).dims.prod →
          result.buffer.getD p 0 =
            (⟨[2], .Int, [5, 7]⟩ : HostTensor).buffer.getD p 0) :=
  ⟨by decide, fun t v => rfl,
    C2_tensor_literal_round_trip (fun _ _ v => v) 0 ⟨[2], .Int, [5, 7]⟩
      ⟨DeviceType.CPU, 0⟩ (by decide) (fun t v => rfl)⟩

/-- A sequence of single-element writes applied left to right (the order the
copy kernels issue them). -/
def applyWrites (ws : List (Nat × Int)) (d : Nat → Int) : Nat → Int :=
  ws.foldl (fun d w => Function.update d w.1 w.2) d

theorem applyWrites_cons (w : Nat × Int) (ws : List (Nat × Int))
    (d : Nat → Int) :
    applyWrites (w :: ws) d = applyWrites ws (Function.update d w.1 w.2) :=
  rfl

theorem applyWrites_append (ws1 ws2 : List (Nat × Int)) (d : Nat → Int) :
    applyWrites (ws1 ++ ws2) d = applyWrites ws2 (applyWrites ws1 d) := by
  simp [applyWrites, List.foldl_append]

/-- An address never written keeps its original value. -/
theorem applyWrites_not_written (ws : List (Nat × Int)) :
    ∀ (d : Nat → Int) (p : Nat), (¬ ∃ v, (p, v) ∈ ws) →
      applyWrites ws d p = d p := by
  induction ws with
  | nil => intro d p _; rfl
  | cons w ws ih =>
      intro d p hp
      rw [applyWrites_cons, ih _ _ (fun ⟨v, hv⟩ => hp ⟨v, by simp [hv]⟩)]
      have hne : w.1 ≠ p := fun h => hp ⟨w.2, by simp [← h]⟩
      simp [Function.update, hne.symm]

/-- With consistent writes (equal addresses carry equal values), the result
at a written address is the written value. -/
theorem applyWrites_written (ws : List (Nat × Int))
    (hcons : ∀ w1 ∈ ws, ∀ w2 ∈ ws, w1.1 = w2.1 → w1.2 = w2.2) :
    ∀ (d : Nat → Int), ∀ w ∈ ws, applyWrites ws d w.1 = w.2 := by
  induction ws with
  | nil => intro d w hw; exact absurd hw (by simp)
  | cons u ws ih =>
      intro d w hw
      rw [applyWrites_cons]
      by_cases hex : ∃ v, (w.1, v) ∈ ws
      · obtain ⟨v, hv⟩ := hex
        have h1 := ih (fun a ha b hb hab =>
          hcons a (by simp [ha]) b (by simp [hb]) hab) (Function.update d u.1 u.2)
          (w.1, v) hv
        rw [h1]
        exact hcons (w.1, v) (by simp [hv]) w hw rfl
      · rw [applyWrites_not_written ws _ _ hex]
        rcases List.mem_cons.mp hw with rfl | hmem
        · simp
        · exact absurd ⟨w.2, by simpa using hmem⟩ hex

/-- Two consistent write sequences over the same address set produce the
same destination. -/
theorem applyWrites_ext (ws1 ws2 : List (Nat × Int)) (d : Nat → Int)
    (hcons : ∀ w1 ∈ ws1 ++ ws2, ∀ w2 ∈ ws1 ++ ws2, w1.1 = w2.1 → w1.2 = w2.2)
    (haddr : ∀ p, (∃ v, (p, v) ∈ ws1) ↔ (∃ v, (p, v) ∈ ws2)) :
    applyWrites ws1 d = applyWrites ws2 d := by
  funext p
  have hcons1 : ∀ w1 ∈ ws1, ∀ w2 ∈ ws1, w1.1 = w2.1 → w1.2 = w2.2 :=
    fun a ha b hb => hcons a (by simp [ha]) b (by simp [hb])
  have hcons2 : ∀ w1 ∈ ws2, ∀ w2 ∈ ws2, w1.1 = w2.1 → w1.2 = w2.2 :=
    fun a ha b hb => hcons a (by simp [ha]) b (by simp [hb])
  by_cases hp : ∃ v, (p, v) ∈ ws1
  · obtain ⟨v1, hv1⟩ := hp
    obtain ⟨v2, hv2⟩ := (haddr p).mp ⟨v1, hv1⟩
    have e1 := applyWrites_written ws1 hcons1 d (p, v1) hv1
    have e2 := applyWrites_written ws2 hcons2 d (p, v2) hv2
    rw [e1, e2]
    exact hcons (p, v1) (by simp [hv1]) (p, v2) (by simp [hv2]) rfl
  · rw [applyWrites_not_written ws1 _ _ hp,
      applyWrites_not_written ws2 _ _ (fun h => hp ((haddr p).mpr h))]

/-- The writes of one StridedCopy call. -/
def stridedWrites (f : Int → Int) (src : Nat → Int)
    (destBase destStride srcBase srcStride n : Nat) : List (Nat × Int) :=
  (List.range (if srcStride = 0 then 0 else n)).map
    (fun k => (destBase + k * destStride, f (src (srcBase + k * srcStride))))

theorem stridedCopyLoop_eq_applyWrites (f : Int → Int) (src : Nat → Int)
    (destBase destStride srcBase srcStride : Nat) :
    ∀ (k : Nat) (dest : Nat → Int),
      stridedCopyLoop f src destBase destStride srcBase srcStride k dest =
        applyWrites ((List.range k).map
          (fun k => (destBase + k * destStride,
            f (src (srcBase + k * srcStride))))) dest := by
  intro k
  induction k with
  | zero => intro dest; rfl
  | succ k ih =>
      intro dest
      rw [List.range_succ, List.map_append, applyWrites_append]
      simp only [stridedCopyLoop, ih]
      rfl

theorem StridedCopy_eq_applyWrites (f : Int → Int) (dest : Nat → Int)
    (destBase destStride : Nat) (src : Nat → Int)
    (srcBase srcStride n : Nat) :
    StridedCopy f dest destBase destStride src srcBase srcStride n =
      applyWrites (stridedWrites f src destBase destStride srcBase srcStride
        n) dest := by
  unfold StridedCopy stridedWrites
  exact stridedCopyLoop_eq_applyWrites f src destBase destStride srcBase
    srcStride _ dest

/-- The sequence of index vectors the sliced-copy loop visits. -/
def odometerVisits (base limit itTail : List Nat) :
    Nat → List Nat → List (List Nat)
  | 0, _ => []
  | fuel + 1, idx =>
      idx :: (match advanceIndices base limit itTail idx with
        | none => []
        | some idx2 => odometerVisits base limit itTail fuel idx2)

/-- The writes of one inner run at a given index vector. -/
def innerRunWrites (f : Int → Int) (src : Nat → Int)
    (dimensions srcStrides destStrides iterDims : List Nat)
    (idx : List Nat) : List (Nat × Int) :=
  stridedWrites f src (GetFlatTensorOffset destStrides idx)
    (destStrides.getD (iterDims.getD 0 0) 0)
    (GetFlatTensorOffset srcStrides idx)
    (srcStrides.getD (iterDims.getD 0 0) 0)
    (dimensions.getD (iterDims.getD 0 0) 0)

theorem slicedCopyLoop_eq_applyWrites (f : Int → Int) (dims : List Nat)
    (src : Nat → Int) (srcStrides destStrides iterDims : List Nat)
    (part : CopyPartition) :
    ∀ (fuel : Nat) (idx : List Nat) (dest : Nat → Int),
      slicedCopyLoop f dims src srcStrides destStrides iterDims part fuel
          idx dest =
        applyWrites
          ((odometerVisits part.base part.limit (iterDims.drop 1) fuel
            idx).flatMap
            (innerRunWrites f src dims srcStrides destStrides iterDims))
          dest := by
  intro fuel
  induction fuel with
  | zero => intro idx dest; rfl
  | succ fuel ih =>
      intro idx dest
      simp only [slicedCopyLoop, odometerVisits]
      cases hadv : advanceIndices part.base part.limit (iterDims.drop 1)
          idx with
      | none =>
          simp only [List.flatMap_cons, List.flatMap_nil, List.append_nil]
          rw [StridedCopy_eq_applyWrites]
          rfl
      | some idx2 =>
          simp only [List.flatMap_cons]
          rw [applyWrites_append, ← ih, StridedCopy_eq_applyWrites]
          rfl

theorem SlicedCopy_eq_applyWrites (f : Int → Int) (dims : List Nat)
    (src : Nat → Int) (srcStrides : List Nat) (dest : Nat → Int)
    (destStrides iterDims : List Nat) (part : CopyPartition) :
    SlicedCopy f dims src srcStrides dest destStrides iterDims part =
      applyWrites
        ((odometerVisits part.base part.limit (iterDims.drop 1)
          (part.limit.foldr (fun a b => (a + 1) * b) 1 + 1)
          part.base).flatMap
          (innerRunWrites f src dims srcStrides destStrides iterDims))
        dest :=
  slicedCopyLoop_eq_applyWrites f dims src srcStrides destStrides iterDims
    part _ part.base dest

/-- The whole partitioned run is the concatenation of the per-partition
write sequences. -/
theorem stridedCopyRun_eq_applyWrites (f : Int → Int) (dims : List Nat)
    (src : Nat → Int) (srcStrides destStrides iterDims : List Nat) :
    ∀ (parts : List CopyPartition) (dest : Nat → Int),
      stridedCopyRun f dims src srcStrides destStrides iterDims parts dest =
        applyWrites
          (parts.flatMap (fun part =>
            (odometerVisits part.base part.limit (iterDims.drop 1)
              (part.limit.foldr (fun a b => (a + 1) * b) 1 + 1)
              part.base).flatMap
              (innerRunWrites f src dims srcStrides destStrides iterDims)))
          dest := by
  intro parts
  induction parts with
  | nil => intro dest; rfl
  | cons part parts ih =>
      intro dest
      simp only [stridedCopyRun, List.foldl_cons, List.flatMap_cons]
      rw [applyWrites_append, ← SlicedCopy_eq_applyWrites]
      exact ih _

/-- Little-endian mixed-radix value of a digit list against a base list. -/
def mrVal : List Nat → List Nat → Nat
  | [], _ => 0
  | _, [] => 0
  | d :: ds, b :: bs => d + b * mrVal ds bs

theorem mrVal_inj : ∀ (bs ds1 ds2 : List Nat),
    ds1.length = bs.length → ds2.length = bs.length →
    (∀ i, i < bs.length → ds1.getD i 0 < bs.getD i 0) →
    (∀ i, i < bs.length → ds2.getD i 0 < bs.getD i 0) →
    mrVal ds1 bs = mrVal ds2 bs → ds1 = ds2 := by
  intro bs
  induction bs with
  | nil =>
      intro ds1 ds2 h1 h2 _ _ _
      rw [List.eq_nil_of_length_eq_zero h1, List.eq_nil_of_length_eq_zero h2]
  | cons b bs ih =>
      intro ds1 ds2 h1 h2 hv1 hv2 heq
      cases ds1 with
      | nil => simp at h1
      | cons d1 t1 =>
          cases ds2 with
          | nil => simp at h2
          | cons d2 t2 =>
              simp only [mrVal] at heq
              have hd1 : d1 < b := by simpa using hv1 0 (by simp)
              have hd2 : d2 < b := by simpa using hv2 0 (by simp)
              have hmod : d1 = d2 := by
                have m1 : (d1 + b * mrVal t1 bs) % b = d1 := by
                  rw [Nat.add_mul_mod_self_left, Nat.mod_eq_of_lt hd1]
                have m2 : (d2 + b * mrVal t2 bs) % b = d2 := by
                  rw [Nat.add_mul_mod_self_left, Nat.mod_eq_of_lt hd2]
                rw [← m1, ← m2, heq]
              subst hmod
              have hb : 0 < b := Nat.lt_of_le_of_lt (Nat.zero_le d1) hd1
              have hbx : b * mrVal t1 bs = b * mrVal t2 bs :=
                Nat.add_left_cancel heq
              have htail : mrVal t1 bs = mrVal t2 bs :=
                Nat.eq_of_mul_eq_mul_left hb hbx
              rw [ih t1 t2 (by simpa using h1) (by simpa using h2)
                (fun i hi => by simpa using hv1 (i + 1) (by simpa using hi))
                (fun i hi => by simpa using hv2 (i + 1) (by simpa using hi))
                htail]

theorem mrVal_lt : ∀ (bs ds : List Nat), ds.length = bs.length →
    (∀ i, i < bs.length → ds.getD i 0 < bs.getD i 0) →
    mrVal ds bs < bs.prod := by
  intro bs
  induction bs with
  | nil =>
      intro ds h _
      rw [List.eq_nil_of_length_eq_zero h]
      simp [mrVal]
  | cons b bs ih =>
      intro ds h hv
      cases ds with
      | nil => simp at h
      | cons d t =>
          simp only [mrVal, List.prod_cons]
          have hd : d < b := by simpa using hv 0 (by simp)
          have ht : mrVal t bs < bs.prod :=
            ih t (by simpa using h)
              (fun i hi => by simpa using hv (i + 1) (by simpa using hi))
          have h2 : b * (mrVal t bs + 1) ≤ b * bs.prod :=
            Nat.mul_le_mul_left b (by omega)
          have h3 : b * (mrVal t bs + 1) = b * mrVal t bs + b := by
            rw [Nat.mul_add, Nat.mul_one]
          omega

theorem mrVal_maxed : ∀ (bs ds : List Nat), ds.length = bs.length →
    (∀ i, i < bs.length → 0 < bs.getD i 0) →
    (∀ i, i < bs.length → ds.getD i 0 = bs.getD i 0 - 1) →
    0 < bs.prod ∧ mrVal ds bs = bs.prod - 1 := by
  intro bs
  induction bs with
  | nil =>
      intro ds h _ _
      rw [List.eq_nil_of_length_eq_zero h]
      simp [mrVal]
  | cons b bs ih =>
      intro ds h hpos hmax
      cases ds with
      | nil => simp at h
      | cons d t =>
          simp only [mrVal, List.prod_cons]
          have hb : 0 < b := by simpa using hpos 0 (by simp)
          have hd : d = b - 1 := by simpa using hmax 0 (by simp)
          obtain ⟨hP, hT⟩ := ih t (by simpa using h)
            (fun i hi => by simpa using hpos (i + 1) (by simpa using hi))
            (fun i hi => by simpa using hmax (i + 1) (by simpa using hi))
          have hmul : b * (bs.prod - 1) = b * bs.prod - b := by
            cases hPc : bs.prod with
            | zero => omega
            | succ p =>
                rw [Nat.succ_sub_one, Nat.mul_succ]
                omega
          constructor
          · exact Nat.mul_pos hb hP
          · rw [hd, hT, hmul]
            have : b ≤ b * bs.prod := Nat.le_mul_of_pos_right b hP
            omega

theorem zipWith_mul_replicate_zero : ∀ (xs : List Nat) (r : Nat),
    (List.zipWith (fun a b => a * b) xs (List.replicate r 0)).sum = 0 := by
  intro xs
  induction xs with
  | nil => intro r; simp
  | cons x xs ih =>
      intro r
      cases r with
      | zero => simp
      | succ r => simpa [List.replicate_succ] using ih r

theorem zipWith_sum_set_right : ∀ (xs ys : List Nat) (i v : Nat),
    i < ys.length → ys.getD i 0 = 0 →
    (List.zipWith (fun a b => a * b) xs (ys.set i v)).sum =
      (List.zipWith (fun a b => a * b) xs ys).sum + xs.getD i 0 * v := by
  intro xs
  induction xs with
  | nil => intro ys i v _ _; simp
  | cons x xs ih =>
      intro ys i v hi h0
      cases ys with
      | nil => simp at hi
      | cons y ys =>
          cases i with
          | zero =>
              have hy : y = 0 := by simpa using h0
              subst hy
              simp only [List.set_cons_zero, List.zipWith_cons_cons,
                List.sum_cons, List.getD_cons_zero]
              ring
          | succ i =>
              simp only [List.set_cons_succ, List.zipWith_cons_cons,
                List.sum_cons, List.getD_cons_succ]
              rw [ih ys i v (by simpa using hi) (by simpa using h0)]
              ring

theorem zipWith_sum_set_left : ∀ (xs ys : List Nat) (i v : Nat),
    i < xs.length → xs.getD i 0 = 0 →
    (List.zipWith (fun a b => a * b) (xs.set i v) ys).sum =
      (List.zipWith (fun a b => a * b) xs ys).sum + v * ys.getD i 0 := by
  intro xs
  induction xs with
  | nil => intro ys i v hi _; simp at hi
  | cons x xs ih =>
      intro ys i v hi h0
      cases ys with
      | nil => simp
      | cons y ys =>
          cases i with
          | zero =>
              have hx : x = 0 := by simpa using h0
              subst hx
              simp only [List.set_cons_zero, List.zipWith_cons_cons,
                List.sum_cons, List.getD_cons_zero]
              ring
          | succ i =>
              simp only [List.set_cons_succ, List.zipWith_cons_cons,
                List.sum_cons, List.getD_cons_succ]
              rw [ih ys i v (by simpa using hi) (by simpa using h0)]
              ring

theorem offset_computeShapeStridesAux (dims : List Nat) :
    ∀ (l : List Nat) (strides : List Nat) (stride : Nat) (idx : List Nat),
    l.Nodup → (∀ d ∈ l, d < strides.length) →
    (∀ d ∈ l, strides.getD d 0 = 0) →
    (List.zipWith (fun a b => a * b) idx
      (computeShapeStridesAux dims l strides stride)).sum =
      (List.zipWith (fun a b => a * b) idx strides).sum +
        stride * mrVal (l.map (fun d => idx.getD d 0))
          (l.map (fun d => dims.getD d 0)) := by
  intro l
  induction l with
  | nil =>
      intro strides stride idx _ _ _
      simp [computeShapeStridesAux, mrVal]
  | cons d rest ih =>
      intro strides stride idx hnd hb h0
      simp only [computeShapeStridesAux]
      rw [ih _ _ _ (List.nodup_cons.mp hnd).2
        (fun e he => by rw [List.length_set]; exact hb e (by simp [he]))
        (fun e he => by
          rw [getD_set_ne _ _ _ _
            (fun h => (List.nodup_cons.mp hnd).1 (by rw [h]; exact he))]
          exact h0 e (by simp [he]))]
      rw [zipWith_sum_set_right idx strides d stride (hb d (by simp))
        (h0 d (by simp))]
      simp only [List.map_cons, mrVal]
      ring

theorem GetFlatTensorOffset_eq_mrVal (shape : ArrayShape) (idx : List Nat)
    (hnd : shape.minor_to_major.Nodup)
    (hb : ∀ d ∈ shape.minor_to_major, d < shape.dims.length) :
    GetFlatTensorOffset (ComputeShapeStrides shape) idx =
      mrVal (shape.minor_to_major.map (fun d => idx.getD d 0))
        (shape.minor_to_major.map (fun d => shape.dims.getD d 0)) := by
  unfold GetFlatTensorOffset ComputeShapeStrides
  rw [offset_computeShapeStridesAux _ _ _ _ _ hnd (by simpa using hb)
    (fun d _ => getD_replicate_zero _ _)]
  rw [zipWith_mul_replicate_zero]
  simp

theorem list_eq_of_getD (l1 l2 : List Nat) (hlen : l1.length = l2.length)
    (h : ∀ j, j < l1.length → l1.getD j 0 = l2.getD j 0) : l1 = l2 :=
  List.ext_getElem hlen (fun i h1 h2 => by
    rw [← List.getD_eq_getElem l1 0 h1, ← List.getD_eq_getElem l2 0 h2]
    exact h i h1)

/-- Injectivity of the flat offset over in-range index vectors, for a shape
whose minor-to-major list is a permutation of the dimension indices. -/
theorem flatOffset_inj (shape : ArrayShape) (idx1 idx2 : List Nat)
    (hperm : shape.minor_to_major.Perm (List.range shape.dims.length))
    (hl1 : idx1.length = shape.dims.length)
    (hl2 : idx2.length = shape.dims.length)
    (hb1 : ∀ j, j < shape.dims.length →
      idx1.getD j 0 < shape.dims.getD j 0)
    (hb2 : ∀ j, j < shape.dims.length →
      idx2.getD j 0 < shape.dims.getD j 0)
    (heq : GetFlatTensorOffset (ComputeShapeStrides shape) idx1 =
      GetFlatTensorOffset (ComputeShapeStrides shape) idx2) :
    idx1 = idx2 := by
  have hnd : shape.minor_to_major.Nodup :=
    hperm.nodup_iff.mpr (List.nodup_range _)
  have hmem : ∀ d ∈ shape.minor_to_major, d < shape.dims.length := by
    intro d hd; exact List.mem_range.mp (hperm.mem_iff.mp hd)
  rw [GetFlatTensorOffset_eq_mrVal _ _ hnd hmem,
    GetFlatTensorOffset_eq_mrVal _ _ hnd hmem] at heq
  have hvalid : ∀ (idx : List Nat),
      (∀ j, j < shape.dims.length → idx.getD j 0 < shape.dims.getD j 0) →
      ∀ i, i < (shape.minor_to_major.map
        (fun d => shape.dims.getD d 0)).length →
      (shape.minor_to_major.map (fun d => idx.getD d 0)).getD i 0 <
        (shape.minor_to_major.map (fun d => shape.dims.getD d 0)).getD i 0 := by
    intro idx hbnd i hi
    rw [List.length_map] at hi
    rw [List.getD_eq_getElem _ _ (by simpa using hi),
      List.getD_eq_getElem _ _ (by simpa using hi),
      List.getElem_map, List.getElem_map]
    exact hbnd _ (hmem _ (List.getElem_mem hi))
  have hdg := mrVal_inj
    (shape.minor_to_major.map (fun d => shape.dims.getD d 0))
    (shape.minor_to_major.map (fun d => idx1.getD d 0))
    (shape.minor_to_major.map (fun d => idx2.getD d 0))
    (by simp) (by simp) (hvalid idx1 hb1) (hvalid idx2 hb2) heq
  refine list_eq_of_getD idx1 idx2 (by omega) ?_
  intro j hj
  have hjm : j ∈ shape.minor_to_major := by
    rw [hperm.mem_iff, List.mem_range]
    omega
  obtain ⟨i, hi, hij⟩ := List.mem_iff_getElem.mp hjm
  have := congrArg (fun l => l.getD i 0) hdg
  simp only at this
  rw [List.getD_eq_getElem _ _ (by simpa using hi),
    List.getD_eq_getElem _ _ (by simpa using hi),
    List.getElem_map, List.getElem_map, hij] at this
  exact this

/-- When the odometer advance overflows, every iterated coordinate was at
its maximum. -/
theorem advanceIndices_none (base limit : List Nat) :
    ∀ (tail idx : List Nat), tail.Nodup →
      (∀ d ∈ tail, d < base.length) → idx.length = base.length →
      (∀ d ∈ tail, base.getD d 0 ≤ idx.getD d 0 ∧
        idx.getD d 0 < limit.getD d 0) →
      advanceIndices base limit tail idx = none →
      ∀ d ∈ tail, idx.getD d 0 = limit.getD d 0 - 1 := by
  intro tail
  induction tail with
  | nil => intro idx _ _ _ _ _ d hd; exact absurd hd (by simp)
  | cons d rest ih =>
      intro idx hnd hb hlen hval hadv e he
      have hdlen : d < idx.length := by rw [hlen]; exact hb d (by simp)
      have hA := hval d (by simp)
      simp only [advanceIndices] at hadv
      rw [getD_set_self _ _ _ hdlen] at hadv
      by_cases hlt : idx.getD d 0 + 1 < limit.getD d 0
      · rw [if_pos hlt] at hadv; exact absurd hadv (by simp)
      · rw [if_neg hlt, List.set_set] at hadv
        have hnd' := List.nodup_cons.mp hnd
        have hrec := ih (idx.set d (base.getD d 0)) hnd'.2
          (fun x hx => hb x (by simp [hx]))
          (by rw [List.length_set]; exact hlen)
          (fun x hx => by
            rw [getD_set_ne _ _ _ _ (fun h => hnd'.1 (by rw [h]; exact hx))]
            exact hval x (by simp [hx]))
          hadv
        rcases List.mem_cons.mp he with rfl | he2
        · omega
        · have := hrec e he2
          rw [getD_set_ne _ _ _ _
            (fun h => hnd'.1 (by rw [h]; exact he2))] at this
          exact this

/-- A successful odometer advance preserves lengths, the untouched
coordinates and the iterated ranges, and increments the mixed-radix rank of
the iterated digits by one. -/
theorem advanceIndices_some (base limit : List Nat) :
    ∀ (tail idx idx2 : List Nat), tail.Nodup →
      (∀ d ∈ tail, d < base.length) → idx.length = base.length →
      (∀ d ∈ tail, base.getD d 0 ≤ idx.getD d 0 ∧
        idx.getD d 0 < limit.getD d 0) →
      advanceIndices base limit tail idx = some idx2 →
      idx2.length = idx.length ∧
      (∀ j, j ∉ tail → idx2.getD j 0 = idx.getD j 0) ∧
      (∀ d ∈ tail, base.getD d 0 ≤ idx2.getD d 0 ∧
        idx2.getD d 0 < limit.getD d 0) ∧
      mrVal (tail.map (fun d => idx2.getD d 0 - base.getD d 0))
          (tail.map (fun d => limit.getD d 0 - base.getD d 0)) =
        mrVal (tail.map (fun d => idx.getD d 0 - base.getD d 0))
          (tail.map (fun d => limit.getD d 0 - base.getD d 0)) + 1 := by
  intro tail
  induction tail with
  | nil => intro idx idx2 _ _ _ _ hadv; exact absurd hadv (by simp [advanceIndices])
  | cons d rest ih =>
      intro idx idx2 hnd hb hlen hval hadv
      have hdlen : d < idx.length := by rw [hlen]; exact hb d (by simp)
      have hA := hval d (by simp)
      have hnd' := List.nodup_cons.mp hnd
      simp only [advanceIndices] at hadv
      rw [getD_set_self _ _ _ hdlen] at hadv
      by_cases hlt : idx.getD d 0 + 1 < limit.getD d 0
      · rw [if_pos hlt] at hadv
        have hidx2 : idx2 = idx.set d (idx.getD d 0 + 1) := by
          exact (Option.some.injEq _ _).mp hadv.symm
        subst hidx2
        refine ⟨List.length_set _ _ _, ?_, ?_, ?_⟩
        · intro j hj
          exact getD_set_ne _ _ _ _ (fun h => hj (by rw [← h]; simp))
        · intro e hee
          rcases List.mem_cons.mp hee with rfl | he2
          · rw [getD_set_self _ _ _ hdlen]; omega
          · rw [getD_set_ne _ _ _ _
              (fun h => hnd'.1 (by rw [h]; exact he2))]
            exact hval e (by simp [he2])
        · simp only [List.map_cons, mrVal]
          rw [getD_set_self _ _ _ hdlen]
          have hmc : rest.map (fun e =>
              (idx.set d (idx.getD d 0 + 1)).getD e 0 - base.getD e 0) =
              rest.map (fun e => idx.getD e 0 - base.getD e 0) :=
            List.map_congr_left (fun e he2 => by
              rw [getD_set_ne _ _ _ _
                (fun h => hnd'.1 (by rw [h]; exact he2))])
          rw [hmc]
          omega
      · rw [if_neg hlt, List.set_set] at hadv
        have hrec := ih (idx.set d (base.getD d 0)) idx2 hnd'.2
          (fun x hx => hb x (by simp [hx]))
          (by rw [List.length_set]; exact hlen)
          (fun x hx => by
            rw [getD_set_ne _ _ _ _ (fun h => hnd'.1 (by rw [h]; exact hx))]
            exact hval x (by simp [hx]))
          hadv
        obtain ⟨hr1, hr2, hr3, hr4⟩ := hrec
        have hd2 : idx2.getD d 0 = base.getD d 0 := by
          rw [hr2 d hnd'.1, getD_set_self _ _ _ hdlen]
        refine ⟨by rw [hr1, List.length_set], ?_, ?_, ?_⟩
        · intro j hj
          simp only [List.mem_cons, not_or] at hj
          rw [hr2 j hj.2, getD_set_ne _ _ _ _ (fun h => hj.1 h.symm)]
        · intro e hee
          rcases List.mem_cons.mp hee with rfl | he2
          · rw [hd2]; omega
          · exact hr3 e he2
        · simp only [List.map_cons, mrVal]
          rw [hd2]
          have hmc : rest.map (fun e =>
              (idx.set d (base.getD d 0)).getD e 0 - base.getD e 0) =
              rest.map (fun e => idx.getD e 0 - base.getD e 0) :=
            List.map_congr_left (fun e he2 => by
              rw [getD_set_ne _ _ _ _
                (fun h => hnd'.1 (by rw [h]; exact he2))])
          rw [hmc] at hr4
          rw [hr4]
          have hB : 1 ≤ limit.getD d 0 - base.getD d 0 := by omega
          have hmul : (limit.getD d 0 - base.getD d 0) *
              (mrVal (rest.map (fun e => idx.getD e 0 - base.getD e 0))
                (rest.map (fun e => limit.getD e 0 - base.getD e 0)) + 1) =
              (limit.getD d 0 - base.getD d 0) *
              mrVal (rest.map (fun e => idx.getD e 0 - base.getD e 0))
                (rest.map (fun e => limit.getD e 0 - base.getD e 0)) +
              (limit.getD d 0 - base.getD d 0) := by
            rw [Nat.mul_add, Nat.mul_one]
          omega

/-- A reachable odometer state within a partition: correct length, inside
the partition interval on each iterated dimension, pinned to the partition
base elsewhere. -/
def odoState (base limit tail : List Nat) (idx : List Nat) : Prop :=
  idx.length = base.length ∧
  (∀ d ∈ tail, base.getD d 0 ≤ idx.getD d 0 ∧
    idx.getD d 0 < limit.getD d 0) ∧
  (∀ j, j ∉ tail → idx.getD j 0 = base.getD j 0)

theorem digits_valid (base limit tail : List Nat) (idx : List Nat)
    (hval : ∀ d ∈ tail, base.getD d 0 ≤ idx.getD d 0 ∧
      idx.getD d 0 < limit.getD d 0) :
    ∀ i, i < (tail.map (fun d => limit.getD d 0 - base.getD d 0)).length →
      (tail.map (fun d => idx.getD d 0 - base.getD d 0)).getD i 0 <
        (tail.map (fun d => limit.getD d 0 - base.getD d 0)).getD i 0 := by
  intro i hi
  rw [List.length_map] at hi
  rw [List.getD_eq_getElem _ _ (by simpa using hi),
    List.getD_eq_getElem _ _ (by simpa using hi),
    List.getElem_map, List.getElem_map]
  have := hval _ (List.getElem_mem hi)
  omega

theorem state_eq_of_digits_eq (base limit tail : List Nat) (s t : List Nat)
    (hs : odoState base limit tail s) (ht : odoState base limit tail t)
    (hdg : tail.map (fun d => t.getD d 0 - base.getD d 0) =
      tail.map (fun d => s.getD d 0 - base.getD d 0)) : t = s := by
  refine list_eq_of_getD t s (by rw [ht.1, hs.1]) ?_
  intro j hj
  by_cases hjt : j ∈ tail
  · obtain ⟨i, hi, hij⟩ := List.mem_iff_getElem.mp hjt
    have hcg := congrArg (fun l => l.getD i 0) hdg
    simp only at hcg
    rw [List.getD_eq_getElem _ _ (by simpa using hi),
      List.getD_eq_getElem _ _ (by simpa using hi),
      List.getElem_map, List.getElem_map, hij] at hcg
    have h1 := hs.2.1 j hjt
    have h2 := ht.2.1 j hjt
    omega
  · rw [ht.2.2 j hjt, hs.2.2 j hjt]

theorem odometerVisits_sound (base limit tail : List Nat)
    (hnd : tail.Nodup) (hb : ∀ d ∈ tail, d < base.length) :
    ∀ (fuel : Nat) (state : List Nat), odoState base limit tail state →
      ∀ v ∈ odometerVisits base limit tail fuel state,
        odoState base limit tail v := by
  intro fuel
  induction fuel with
  | zero => intro state _ v hv; exact absurd hv (by simp [odometerVisits])
  | succ fuel ih =>
      intro state hstate v hv
      rw [odometerVisits] at hv
      rcases List.mem_cons.mp hv with rfl | hv2
      · exact hstate
      · cases hadv : advanceIndices base limit tail state with
        | none => rw [hadv] at hv2; exact absurd hv2 (by simp)
        | some st2 =>
            rw [hadv] at hv2
            obtain ⟨h1, h2, h3, _⟩ := advanceIndices_some base limit tail
              state st2 hnd hb hstate.1 hstate.2.1 hadv
            exact ih st2 ⟨by rw [h1]; exact hstate.1, h3,
              fun j hj => by rw [h2 j hj]; exact hstate.2.2 j hj⟩ v hv2

theorem odometerVisits_complete (base limit tail : List Nat)
    (hnd : tail.Nodup) (hb : ∀ d ∈ tail, d < base.length) :
    ∀ (fuel : Nat) (state target : List Nat),
      odoState base limit tail state → odoState base limit tail target →
      mrVal (tail.map (fun d => state.getD d 0 - base.getD d 0))
          (tail.map (fun d => limit.getD d 0 - base.getD d 0)) ≤
        mrVal (tail.map (fun d => target.getD d 0 - base.getD d 0))
          (tail.map (fun d => limit.getD d 0 - base.getD d 0)) →
      mrVal (tail.map (fun d => target.getD d 0 - base.getD d 0))
          (tail.map (fun d => limit.getD d 0 - base.getD d 0)) -
        mrVal (tail.map (fun d => state.getD d 0 - base.getD d 0))
          (tail.map (fun d => limit.getD d 0 - base.getD d 0)) < fuel →
      target ∈ odometerVisits base limit tail fuel state := by
  intro fuel
  induction fuel with
  | zero => intro state target _ _ _ hlt; omega
  | succ fuel ih =>
      intro state target hstate htarget hle hlt
      rw [odometerVisits]
      by_cases heqr :
          mrVal (tail.map (fun d => target.getD d 0 - base.getD d 0))
            (tail.map (fun d => limit.getD d 0 - base.getD d 0)) =
          mrVal (tail.map (fun d => state.getD d 0 - base.getD d 0))
            (tail.map (fun d => limit.getD d 0 - base.getD d 0))
      · have hdg := mrVal_inj
          (tail.map (fun d => limit.getD d 0 - base.getD d 0)) _ _
          (by simp) (by simp)
          (digits_valid base limit tail target htarget.2.1)
          (digits_valid base limit tail state hstate.2.1) heqr
        rw [state_eq_of_digits_eq base limit tail state target hstate
          htarget hdg]
        exact List.mem_cons_self _ _
      · cases hadv : advanceIndices base limit tail state with
        | none =>
            exfalso
            have hmax := advanceIndices_none base limit tail state hnd hb
              hstate.1 hstate.2.1 hadv
            have hmaxed := mrVal_maxed
              (tail.map (fun d => limit.getD d 0 - base.getD d 0))
              (tail.map (fun d => state.getD d 0 - base.getD d 0))
              (by simp)
              (fun i hi => by
                rw [List.length_map] at hi
                rw [List.getD_eq_getElem _ _ (by simpa using hi),
                  List.getElem_map]
                have := hstate.2.1 _ (List.getElem_mem hi)
                omega)
              (fun i hi => by
                rw [List.length_map] at hi
                rw [List.getD_eq_getElem _ _ (by simpa using hi),
                  List.getD_eq_getElem _ _ (by simpa using hi),
                  List.getElem_map, List.getElem_map]
                have h1 := hstate.2.1 _ (List.getElem_mem hi)
                have h2 := hmax _ (List.getElem_mem hi)
                omega)
            have htlt := mrVal_lt
              (tail.map (fun d => limit.getD d 0 - base.getD d 0))
              (tail.map (fun d => target.getD d 0 - base.getD d 0))
              (by simp)
              (digits_valid base limit tail target htarget.2.1)
            omega
        | some st2 =>
            obtain ⟨h1, h2, h3, h4⟩ := advanceIndices_some base limit tail
              state st2 hnd hb hstate.1 hstate.2.1 hadv
            have hst2 : odoState base limit tail st2 :=
              ⟨by rw [h1]; exact hstate.1, h3,
                fun j hj => by rw [h2 j hj]; exact hstate.2.2 j hj⟩
            exact List.mem_cons_of_mem _
              (ih st2 target hst2 htarget (by omega) (by omega))

theorem set_getD_self (l : List Nat) (i : Nat) (h : i < l.length) :
    l.set i (l.getD i 0) = l := by
  refine list_eq_of_getD _ _ (by simp) ?_
  intro j hj
  by_cases hij : i = j
  · subst hij; exact getD_set_self _ _ _ h
  · exact getD_set_ne _ _ _ _ hij

theorem mrVal_zeros : ∀ (bs ds : List Nat), (∀ x ∈ ds, x = 0) →
    mrVal ds bs = 0 := by
  intro bs
  induction bs with
  | nil => intro ds _; cases ds <;> rfl
  | cons b bs ih =>
      intro ds h
      cases ds with
      | nil => rfl
      | cons d t =>
          simp only [mrVal]
          rw [h d (by simp), ih t (fun x hx => h x (by simp [hx]))]
          simp

theorem map_prod_le_map_prod (l : List Nat) (f g : Nat → Nat)
    (h : ∀ x ∈ l, f x ≤ g x) : (l.map f).prod ≤ (l.map g).prod := by
  induction l with
  | nil => simp
  | cons x l ih =>
      simp only [List.map_cons, List.prod_cons]
      exact Nat.mul_le_mul (h x (by simp)) (ih (fun y hy => h y (by simp [hy])))

theorem sublist_prod_le (l1 l2 : List Nat) (hsub : l1.Sublist l2)
    (hpos : ∀ x ∈ l2, 1 ≤ x) : l1.prod ≤ l2.prod := by
  induction hsub with
  | slnil => simp
  | cons a h ih =>
      simp only [List.prod_cons]
      have h1 := ih (fun x hx => hpos x (by simp [hx]))
      have ha := hpos a (by simp)
      exact Nat.le_trans h1 (Nat.le_mul_of_pos_left _ (by omega))
  | cons₂ a h ih =>
      simp only [List.prod_cons]
      exact Nat.mul_le_mul_left a (ih (fun x hx => hpos x (by simp [hx])))

theorem foldr_succ_prod (L : List Nat) :
    ((List.range L.length).map (fun d => L.getD d 0 + 1)).prod =
      L.foldr (fun a b => (a + 1) * b) 1 := by
  induction L with
  | nil => simp
  | cons x rest ih =>
      simp only [List.length_cons, List.range_succ_eq_map, List.map_cons,
        List.prod_cons, List.getD_cons_zero, List.map_map, List.foldr_cons]
      rw [← ih]
      have hmc : List.map ((fun d => (x :: rest).getD d 0 + 1) ∘ Nat.succ)
          (List.range rest.length) =
          List.map (fun d => rest.getD d 0 + 1) (List.range rest.length) :=
        List.map_congr_left (fun d _ => by simp [Function.comp])
      rw [hmc]

/-- The mixed-radix rank of any valid state is below the sliced-copy fuel
computed from the partition limits. -/
theorem rank_lt_fuel (limit base tail : List Nat) (hnd : tail.Nodup)
    (hb : ∀ d ∈ tail, d < limit.length) (target : List Nat)
    (hval : ∀ d ∈ tail, base.getD d 0 ≤ target.getD d 0 ∧
      target.getD d 0 < limit.getD d 0) :
    mrVal (tail.map (fun d => target.getD d 0 - base.getD d 0))
      (tail.map (fun d => limit.getD d 0 - base.getD d 0)) <
      limit.foldr (fun a b => (a + 1) * b) 1 + 1 := by
  have h1 := mrVal_lt (tail.map (fun d => limit.getD d 0 - base.getD d 0))
    (tail.map (fun d => target.getD d 0 - base.getD d 0)) (by simp)
    (digits_valid base limit tail target hval)
  have h2 : (tail.map (fun d => limit.getD d 0 - base.getD d 0)).prod ≤
      (tail.map (fun d => limit.getD d 0 + 1)).prod :=
    map_prod_le_map_prod tail _ _ (fun d _ => by omega)
  have hsubp : tail.Subperm (List.range limit.length) :=
    List.Nodup.subperm hnd (fun d hd => List.mem_range.mpr (hb d hd))
  obtain ⟨l, hlp, hsl⟩ := List.subperm_iff.mp hsubp
  have h3 : (tail.map (fun d => limit.getD d 0 + 1)).prod ≤
      ((List.range limit.length).map (fun d => limit.getD d 0 + 1)).prod := by
    have hc1 := (hsl.map (fun d => limit.getD d 0 + 1))
    have hc2 := sublist_prod_le _ _ hc1 (fun x hx => by
      obtain ⟨d, _, rfl⟩ := List.mem_map.mp hx
      omega)
    rw [(hlp.map (fun d => limit.getD d 0 + 1)).prod_eq] at hc2
    exact hc2
  rw [foldr_succ_prod] at h3
  omega

theorem listSwap_zero_perm (l : List Nat) (c : Nat) (hc : c < l.length) :
    (listSwap l 0 c).Perm l := by
  cases l with
  | nil => simp at hc
  | cons x rest =>
      cases c with
      | zero => simp [listSwap]
      | succ k =>
          have hk : k < rest.length := by simpa using hc
          have h1 : listSwap (x :: rest) 0 (k + 1) =
              rest.getD k 0 :: rest.set k x := by
            simp [listSwap]
          rw [h1, List.getD_eq_getElem _ _ hk]
          have hset : rest.set k x =
              rest.take k ++ x :: rest.drop (k + 1) := by
            rw [List.set_eq_take_append_cons_drop, if_pos hk]
          have hdec : rest.take k ++ rest[k] :: rest.drop (k + 1) = rest := by
            rw [← List.drop_eq_getElem_cons hk, List.take_append_drop]
          rw [hset]
          refine List.Perm.trans (List.Perm.cons _ List.perm_middle) ?_
          refine List.Perm.trans (List.Perm.swap x rest[k] _) ?_
          refine List.Perm.cons _ ?_
          refine List.Perm.trans List.perm_middle.symm ?_
          rw [hdec]

/-- GetIterationDimensions returns a permutation of the minor-to-major
list. -/
theorem getIterationDimensions_perm (dims m2m : List Nat) (hne : m2m ≠ []) :
    (GetIterationDimensions dims m2m).Perm m2m := by
  unfold GetIterationDimensions
  rw [getIterationDimensionsAux_spec]
  apply listSwap_zero_perm
  by_cases hcond : ((m2m.drop 1).map (fun d => dims.getD d 0)).foldr max 0 ≤
      8 * dims.getD (m2m.getD 0 0) 0
  · rw [if_pos hcond]
    exact List.length_pos.mpr hne
  · rw [if_neg hcond]
    have hmapne : (m2m.drop 1).map (fun d => dims.getD d 0) ≠ [] := by
      intro h
      rw [h] at hcond
      simp at hcond
    have hmx := foldr_max_mem _ hmapne
    obtain ⟨d, hd, hdeq⟩ := List.mem_map.mp hmx
    have hfi := List.findIdx_lt_length_of_exists
      (p := fun d => dims.getD d 0 ==
        ((m2m.drop 1).map (fun d => dims.getD d 0)).foldr max 0)
      ⟨d, hd, by simp only [beq_iff_eq]; exact hdeq⟩
    rw [List.length_drop] at hfi
    have hlen : 0 < m2m.length := List.length_pos.mpr hne
    omega

/-- The write list of a whole partitioned strided-copy run. -/
def runWrites (f : Int → Int) (dims : List Nat) (src : Nat → Int)
    (srcStrides destStrides iterDims : List Nat)
    (parts : List CopyPartition) : List (Nat × Int) :=
  parts.flatMap (fun part =>
    (odometerVisits part.base part.limit (iterDims.drop 1)
      (part.limit.foldr (fun a b => (a + 1) * b) 1 + 1)
      part.base).flatMap
      (innerRunWrites f src dims srcStrides destStrides iterDims))

theorem stridedCopyRun_eq_runWrites (f : Int → Int) (dims : List Nat)
    (src : Nat → Int) (srcStrides destStrides iterDims : List Nat)
    (parts : List CopyPartition) (dest : Nat → Int) :
    stridedCopyRun f dims src srcStrides destStrides iterDims parts dest =
      applyWrites
        (runWrites f dims src srcStrides destStrides iterDims parts) dest :=
  stridedCopyRun_eq_applyWrites f dims src srcStrides destStrides iterDims
    parts dest

/-- The index box a strided-copy run writes: in-range coordinates with the
inner coordinate bounded by the inner iteration count. -/
def writeBox (dims : List Nat) (inner n : Nat) (F : List Nat) : Prop :=
  F.length = dims.length ∧
  (∀ j, j < dims.length → F.getD j 0 < dims.getD j 0) ∧
  F.getD inner 0 < n

/-- Every write of a partitioned run is the canonical write of a unique box
index, and every box index is written: the run's write set does not depend
on how the split dimension was tiled. -/
theorem runWrites_mem_iff (f : Int → Int) (dims : List Nat)
    (src : Nat → Int) (srcStrides destStrides iterDims : List Nat)
    (hpos : ∀ d ∈ dims, 0 < d)
    (hIperm : iterDims.Perm (List.range dims.length))
    (hr : 2 ≤ dims.length) (hc : Nat) (w : Nat × Int) :
    w ∈ runWrites f dims src srcStrides destStrides iterDims
        (CreateCopyPartitions hc dims (iterDims.getD 0 0)) ↔
      ∃ F, writeBox dims (iterDims.getD 0 0)
          (if srcStrides.getD (iterDims.getD 0 0) 0 = 0 then 0
           else dims.getD (iterDims.getD 0 0) 0) F ∧
        w = (GetFlatTensorOffset destStrides F,
          f (src (GetFlatTensorOffset srcStrides F))) := by
  have hItlen : iterDims.length = dims.length := by
    rw [hIperm.length_eq, List.length_range]
  have hItnd : iterDims.Nodup := hIperm.nodup_iff.mpr (List.nodup_range _)
  have hItmem : ∀ d ∈ iterDims, d < dims.length := by
    intro d hd; exact List.mem_range.mp (hIperm.mem_iff.mp hd)
  have hIcons : iterDims = iterDims.getD 0 0 :: iterDims.drop 1 := by
    cases iterDims with
    | nil => rw [List.length_nil] at hItlen; omega
    | cons a t => rfl
  set inner := iterDims.getD 0 0 with hinner
  set tail := iterDims.drop 1 with htail
  have hinlt : inner < dims.length := hItmem inner (by rw [hIcons]; simp)
  have hinnotail : inner ∉ tail := by
    have := hItnd
    rw [hIcons] at this
    exact (List.nodup_cons.mp this).1
  have htailnd : tail.Nodup := by
    have := hItnd
    rw [hIcons] at this
    exact (List.nodup_cons.mp this).2
  have htailmem : ∀ d ∈ tail, d < dims.length := by
    intro d hd
    exact hItmem d (by rw [hIcons]; simp [hd])
  have hcover : ∀ j, j < dims.length → j = inner ∨ j ∈ tail := by
    intro j hj
    have : j ∈ iterDims := hIperm.mem_iff.mpr (List.mem_range.mpr hj)
    rw [hIcons] at this
    exact List.mem_cons.mp this
  have hex : ∃ i, i < dims.length ∧ i ≠ inner := by
    by_cases h0 : inner = 0
    · exact ⟨1, by omega, by omega⟩
    · exact ⟨0, by omega, fun h => h0 h.symm⟩
  obtain ⟨md, hmd⟩ := findMaxDim_exists dims inner hex
  obtain ⟨hmdlt, hmdne⟩ := findMaxDim_some_mem dims inner md hmd
  have hmdtail : md ∈ tail := by
    rcases hcover md hmdlt with h | h
    · exact absurd h hmdne
    · exact h
  have hdimmd : 0 < dims.getD md 0 := by
    apply hpos
    rw [List.getD_eq_getElem _ _ hmdlt]
    exact List.getElem_mem hmdlt
  have hdimin : 0 < dims.getD inner 0 := by
    apply hpos
    rw [List.getD_eq_getElem _ _ hinlt]
    exact List.getElem_mem hinlt
  have hpsz : 1 ≤ max (max (dims.getD md 0 / max (hc / 2) 1) 1)
      (100000 / (dims.prod / dims.getD md 0)) := by omega
  have hch := tileIntervals_chain (dims.getD md 0)
    (max (max (dims.getD md 0 / max (hc / 2) 1) 1)
      (100000 / (dims.prod / dims.getD md 0)))
    hpsz (dims.getD md 0 + 1) 0 (by omega) (by omega)
  have hparts : CreateCopyPartitions hc dims inner =
      (tileIntervals (dims.getD md 0)
        (max (max (dims.getD md 0 / max (hc / 2) 1) 1)
          (100000 / (dims.prod / dims.getD md 0)))
        (dims.getD md 0 + 1) 0).map (fun iv =>
        (⟨(List.replicate dims.length 0).set md iv.1,
          dims.set md iv.2⟩ : CopyPartition)) := by
    rw [CreateCopyPartitions_eq_some hc dims inner md hmd,
      partitionLoop_eq_tile]
  set ivs := tileIntervals (dims.getD md 0)
    (max (max (dims.getD md 0 / max (hc / 2) 1) 1)
      (100000 / (dims.prod / dims.getD md 0)))
    (dims.getD md 0 + 1) 0 with hivs
  -- facts about a partition built from an interval
  have hbaseD : ∀ (a : Nat) (d : Nat), d ≠ md →
      ((List.replicate dims.length (0 : Nat)).set md a).getD d 0 = 0 := by
    intro a d hd
    rw [getD_set_ne _ _ _ _ (fun h => hd h.symm)]
    exact getD_replicate_zero _ _
  have hbaseMd : ∀ a : Nat,
      ((List.replicate dims.length (0 : Nat)).set md a).getD md 0 = a := by
    intro a
    exact getD_set_self _ _ _ (by simpa using hmdlt)
  have hlimD : ∀ (b : Nat) (d : Nat), d ≠ md →
      (dims.set md b).getD d 0 = dims.getD d 0 := by
    intro b d hd
    exact getD_set_ne _ _ _ _ (fun h => hd h.symm)
  have hlimMd : ∀ b : Nat, (dims.set md b).getD md 0 = b := by
    intro b
    exact getD_set_self _ _ _ hmdlt
  have hbaselen : ∀ a : Nat,
      ((List.replicate dims.length (0 : Nat)).set md a).length =
        dims.length := by
    intro a; simp
  have hlimlen : ∀ b : Nat, (dims.set md b).length = dims.length := by
    intro b; simp
  have hivbounds : ∀ iv ∈ ivs, iv.1 < iv.2 ∧ iv.2 ≤ dims.getD md 0 :=
    fun iv hiv =>
      ⟨(intervalChain_mem_bounds _ _ _ hch iv hiv).2.1,
       (intervalChain_mem_bounds _ _ _ hch iv hiv).2.2⟩
  have hstart : ∀ iv ∈ ivs,
      odoState ((List.replicate dims.length 0).set md iv.1)
        (dims.set md iv.2) tail
        ((List.replicate dims.length 0).set md iv.1) := by
    intro iv hiv
    refine ⟨rfl, ?_, fun j _ => rfl⟩
    intro d hd
    refine ⟨Nat.le_refl _, ?_⟩
    by_cases hdm : d = md
    · subst hdm
      rw [hbaseMd, hlimMd]
      exact (hivbounds iv hiv).1
    · rw [hbaseD _ _ hdm, hlimD _ _ hdm]
      apply hpos
      rw [List.getD_eq_getElem _ _ (htailmem d hd)]
      exact List.getElem_mem (htailmem d hd)
  rw [runWrites, hparts]
  constructor
  · -- soundness
    intro hw
    obtain ⟨part, hpartmem, hw2⟩ := List.mem_flatMap.mp hw
    obtain ⟨iv, hiv, hgiv⟩ := List.mem_map.mp hpartmem
    obtain ⟨idx, hidxmem, hw3⟩ := List.mem_flatMap.mp hw2
    rw [← hgiv] at hidxmem
    have hsound := odometerVisits_sound
      ((List.replicate dims.length 0).set md iv.1) (dims.set md iv.2) tail
      htailnd (fun d hd => by rw [hbaselen]; exact htailmem d hd)
      _ _ (hstart iv hiv) idx hidxmem
    have hidxlen : idx.length = dims.length := by
      rw [hsound.1, hbaselen]
    have hidxin : idx.getD inner 0 = 0 := by
      rw [hsound.2.2 inner hinnotail, hbaseD _ _ hmdne.symm]
    simp only [innerRunWrites, stridedWrites] at hw3
    obtain ⟨k, hkmem, hwk⟩ := List.mem_map.mp hw3
    rw [List.mem_range] at hkmem
    refine ⟨idx.set inner k, ⟨?_, ?_, ?_⟩, ?_⟩
    · rw [List.length_set, hidxlen]
    · intro j hj
      by_cases hji : j = inner
      · subst hji
        rw [getD_set_self _ _ _ (by omega)]
        by_cases hz : srcStrides.getD inner 0 = 0
        · rw [if_pos hz] at hkmem; omega
        · rw [if_neg hz] at hkmem; exact hkmem
      · rw [getD_set_ne _ _ _ _ (fun h => hji h.symm)]
        rcases hcover j hj with h | h
        · exact absurd h hji
        · have hv := hsound.2.1 j h
          by_cases hjm : j = md
          · subst hjm
            rw [hlimMd] at hv
            have := (hivbounds iv hiv).2
            omega
          · rw [hlimD _ _ hjm] at hv
            omega
    · rw [getD_set_self _ _ _ (by omega)]
      exact hkmem
    · rw [← hwk]
      have ha1 := zipWith_sum_set_left idx destStrides inner k
        (by omega) hidxin
      have ha2 := zipWith_sum_set_left idx srcStrides inner k
        (by omega) hidxin
      simp only [GetFlatTensorOffset] at ha1 ha2 ⊢
      rw [ha1, ha2]
  · -- completeness
    rintro ⟨F, ⟨hFlen, hFbnd, hFin⟩, hweq⟩
    have hnz : ¬ (srcStrides.getD inner 0 = 0) := by
      intro hz
      rw [if_pos hz] at hFin
      omega
    rw [if_neg hnz] at hFin
    obtain ⟨iv, hiv, hcov1, hcov2⟩ := intervalChain_cover _ _ _ hch
      (F.getD md 0) (Nat.zero_le _) (hFbnd md hmdlt)
    have hidxst : odoState ((List.replicate dims.length 0).set md iv.1)
        (dims.set md iv.2) tail (F.set inner 0) := by
      refine ⟨by rw [List.length_set, hFlen, hbaselen], ?_, ?_⟩
      · intro d hd
        have hdin : d ≠ inner := fun h => hinnotail (h ▸ hd)
        rw [getD_set_ne _ _ _ _ (fun h => hdin h.symm)]
        by_cases hdm : d = md
        · subst hdm
          rw [hbaseMd, hlimMd]
          exact ⟨hcov1, hcov2⟩
        · rw [hbaseD _ _ hdm, hlimD _ _ hdm]
          exact ⟨Nat.zero_le _, hFbnd d (htailmem d hd)⟩
      · intro j hj
        by_cases hji : j = inner
        · subst hji
          rw [getD_set_self _ _ _ (by omega), hbaseD _ _ hmdne.symm]
        · rw [getD_set_ne _ _ _ _ (fun h => hji h.symm)]
          by_cases hjlt : j < dims.length
          · rcases hcover j hjlt with h | h
            · exact absurd h hji
            · exact absurd h hj
          · rw [List.getD_eq_default _ _ (by omega),
              List.getD_eq_default _ _ (by rw [hbaselen]; omega)]
    have hbasest := hstart iv hiv
    have hcomp := odometerVisits_complete
      ((List.replicate dims.length 0).set md iv.1) (dims.set md iv.2) tail
      htailnd (fun d hd => by rw [hbaselen]; exact htailmem d hd)
      ((dims.set md iv.2).foldr (fun a b => (a + 1) * b) 1 + 1)
      ((List.replicate dims.length 0).set md iv.1) (F.set inner 0)
      hbasest hidxst
      (by
        have hz := mrVal_zeros
          (tail.map (fun d => (dims.set md iv.2).getD d 0 -
            ((List.replicate dims.length 0).set md iv.1).getD d 0))
          (tail.map (fun d =>
            ((List.replicate dims.length 0).set md iv.1).getD d 0 -
            ((List.replicate dims.length 0).set md iv.1).getD d 0))
          (fun x hx => by
            obtain ⟨d, _, rfl⟩ := List.mem_map.mp hx
            omega)
        rw [hz]
        exact Nat.zero_le _)
      (by
        have hz := mrVal_zeros
          (tail.map (fun d => (dims.set md iv.2).getD d 0 -
            ((List.replicate dims.length 0).set md iv.1).getD d 0))
          (tail.map (fun d =>
            ((List.replicate dims.length 0).set md iv.1).getD d 0 -
            ((List.replicate dims.length 0).set md iv.1).getD d 0))
          (fun x hx => by
            obtain ⟨d, _, rfl⟩ := List.mem_map.mp hx
            omega)
        rw [hz]
        have := rank_lt_fuel (dims.set md iv.2)
          ((List.replicate dims.length 0).set md iv.1) tail htailnd
          (fun d hd => by rw [hlimlen]; exact htailmem d hd)
          (F.set inner 0) hidxst.2.1
        omega)
    refine List.mem_flatMap.mpr ⟨⟨(List.replicate dims.length 0).set md iv.1,
      dims.set md iv.2⟩, List.mem_map_of_mem _ hiv, ?_⟩
    refine List.mem_flatMap.mpr ⟨F.set inner 0, hcomp, ?_⟩
    simp only [innerRunWrites, stridedWrites]
    refine List.mem_map.mpr ⟨F.getD inner 0, ?_, ?_⟩
    · rw [List.mem_range, if_neg hnz]
      exact hFin
    · have hFset : (F.set inner 0).set inner (F.getD inner 0) = F := by
        rw [List.set_set]
        exact set_getD_self F inner (by omega)
      have hin0 : (F.set inner 0).getD inner 0 = 0 :=
        getD_set_self _ _ _ (by omega)
      have ha1 := zipWith_sum_set_left (F.set inner 0) destStrides inner
        (F.getD inner 0) (by rw [List.length_set]; omega) hin0
      have ha2 := zipWith_sum_set_left (F.set inner 0) srcStrides inner
        (F.getD inner 0) (by rw [List.length_set]; omega) hin0
      rw [hFset] at ha1 ha2
      rw [hweq]
      simp only [GetFlatTensorOffset] at ha1 ha2 ⊢
      rw [ha1, ha2]

/-- C7: for a fixed source buffer, source strides, destination shape and
initial destination buffer, the partitioned strided copy produces an
identical destination for every hardware concurrency (equivalently, for
every max_parts value, in particular one partition versus many). -/
theorem C7_strided_copy_partition_independence (f : Int → Int)
    (dest_shape : ArrayShape) (src dest : Nat → Int)
    (srcStrides : List Nat)
    (hperm : dest_shape.minor_to_major.Perm
      (List.range dest_shape.dims.length))
    (hpos : ∀ d ∈ dest_shape.dims, 0 < d)
    (hr : 2 ≤ dest_shape.dims.length) (hc1 hc2 : Nat) :
    stridedCopyRun f dest_shape.dims src srcStrides
      (ComputeShapeStrides dest_shape)
      (GetIterationDimensions dest_shape.dims dest_shape.minor_to_major)
      (CreateCopyPartitions hc1 dest_shape.dims
        ((GetIterationDimensions dest_shape.dims
          dest_shape.minor_to_major).getD 0 0)) dest =
    stridedCopyRun f dest_shape.dims src srcStrides
      (ComputeShapeStrides dest_shape)
      (GetIterationDimensions dest_shape.dims dest_shape.minor_to_major)
      (CreateCopyPartitions hc2 dest_shape.dims
        ((GetIterationDimensions dest_shape.dims
          dest_shape.minor_to_major).getD 0 0)) dest := by
  have hmne : dest_shape.minor_to_major ≠ [] := by
    intro h
    have hl := hperm.length_eq
    rw [h, List.length_range, List.length_nil] at hl
    omega
  have hIperm : (GetIterationDimensions dest_shape.dims
      dest_shape.minor_to_major).Perm
      (List.range dest_shape.dims.length) :=
    (getIterationDimensions_perm _ _ hmne).trans hperm
  rw [stridedCopyRun_eq_runWrites, stridedCopyRun_eq_runWrites]
  apply applyWrites_ext
  · intro w1 hw1 w2 hw2 haddr
    have hchar1 : ∃ F, writeBox dest_shape.dims
        ((GetIterationDimensions dest_shape.dims
          dest_shape.minor_to_major).getD 0 0)
        (if srcStrides.getD ((GetIterationDimensions dest_shape.dims
            dest_shape.minor_to_major).getD 0 0) 0 = 0 then 0
         else dest_shape.dims.getD ((GetIterationDimensions dest_shape.dims
            dest_shape.minor_to_major).getD 0 0) 0) F ∧
        w1 = (GetFlatTensorOffset (ComputeShapeStrides dest_shape) F,
          f (src (GetFlatTensorOffset srcStrides F))) := by
      rcases List.mem_append.mp hw1 with h | h
      · exact (runWrites_mem_iff f dest_shape.dims src srcStrides
          (ComputeShapeStrides dest_shape) _ hpos hIperm hr hc1 w1).mp h
      · exact (runWrites_mem_iff f dest_shape.dims src srcStrides
          (ComputeShapeStrides dest_shape) _ hpos hIperm hr hc2 w1).mp h
    have hchar2 : ∃ F, writeBox dest_shape.dims
        ((GetIterationDimensions dest_shape.dims
          dest_shape.minor_to_major).getD 0 0)
        (if srcStrides.getD ((GetIterationDimensions dest_shape.dims
            dest_shape.minor_to_major).getD 0 0) 0 = 0 then 0
         else dest_shape.dims.getD ((GetIterationDimensions dest_shape.dims
            dest_shape.minor_to_major).getD 0 0) 0) F ∧
        w2 = (GetFlatTensorOffset (ComputeShapeStrides dest_shape) F,
          f (src (GetFlatTensorOffset srcStrides F))) := by
      rcases List.mem_append.mp hw2 with h | h
      · exact (runWrites_mem_iff f dest_shape.dims src srcStrides
          (ComputeShapeStrides dest_shape) _ hpos hIperm hr hc1 w2).mp h
      · exact (runWrites_mem_iff f dest_shape.dims src srcStrides
          (ComputeShapeStrides dest_shape) _ hpos hIperm hr hc2 w2).mp h
    obtain ⟨F1, hbox1, hw1eq⟩ := hchar1
    obtain ⟨F2, hbox2, hw2eq⟩ := hchar2
    have hA : GetFlatTensorOffset (ComputeShapeStrides dest_shape) F1 =
        GetFlatTensorOffset (ComputeShapeStrides dest_shape) F2 := by
      rw [hw1eq, hw2eq] at haddr
      exact haddr
    have hFeq : F1 = F2 := flatOffset_inj dest_shape F1 F2 hperm
      hbox1.1 hbox2.1 hbox1.2.1 hbox2.2.1 hA
    rw [hw1eq, hw2eq, hFeq]
  · intro p
    constructor
    · rintro ⟨v, hv⟩
      obtain ⟨F, hbox, heq⟩ := (runWrites_mem_iff f dest_shape.dims src
        srcStrides (ComputeShapeStrides dest_shape) _ hpos hIperm hr hc1
        (p, v)).mp hv
      refine ⟨f (src (GetFlatTensorOffset srcStrides F)), ?_⟩
      have hp : p = GetFlatTensorOffset (ComputeShapeStrides dest_shape)
          F := congrArg Prod.fst heq
      rw [hp]
      exact (runWrites_mem_iff f dest_shape.dims src srcStrides
        (ComputeShapeStrides dest_shape) _ hpos hIperm hr hc2 _).mpr
        ⟨F, hbox, rfl⟩
    · rintro ⟨v, hv⟩
      obtain ⟨F, hbox, heq⟩ := (runWrites_mem_iff f dest_shape.dims src
        srcStrides (ComputeShapeStrides dest_shape) _ hpos hIperm hr hc2
        (p, v)).mp hv
      refine ⟨f (src (GetFlatTensorOffset srcStrides F)), ?_⟩
      have hp : p = GetFlatTensorOffset (ComputeShapeStrides dest_shape)
          F := congrArg Prod.fst heq
      rw [hp]
      exact (runWrites_mem_iff f dest_shape.dims src srcStrides
        (ComputeShapeStrides dest_shape) _ hpos hIperm hr hc1 _).mpr
        ⟨F, hbox, rfl⟩

/-- Witness for C7: dimensions [2, 2] with layout [0, 1], identity element
conversion, zero source, hardware concurrencies 1 versus 8. -/
theorem C7_strided_copy_partition_independence_witness :
    ((⟨.F32, [2, 2], [0, 1]⟩ : ArrayShape).minor_to_major.Perm
      (List.range (⟨.F32, [2, 2], [0, 1]⟩ : ArrayShape).dims.length) ∧
      (∀ d ∈ (⟨.F32, [2, 2], [0, 1]⟩ : ArrayShape).dims, 0 < d) ∧
      2 ≤ (⟨.F32, [2, 2], [0, 1]⟩ : ArrayShape).dims.length) ∧
    stridedCopyRun (fun v => v)
      (⟨.F32, [2, 2], [0, 1]⟩ : ArrayShape).dims
      (fun _ => (0 : Int)) [1, 2]
      (ComputeShapeStrides (⟨.F32, [2, 2], [0, 1]⟩ : ArrayShape))
      (GetIterationDimensions (⟨.F32, [2, 2], [0, 1]⟩ : ArrayShape).dims
        (⟨.F32, [2, 2], [0, 1]⟩ : ArrayShape).minor_to_major)
      (CreateCopyPartitions 1 (⟨.F32, [2, 2], [0, 1]⟩ : ArrayShape).dims
        ((GetIterationDimensions (⟨.F32, [2, 2], [0, 1]⟩ : ArrayShape).dims
          (⟨.F32, [2, 2], [0, 1]⟩ : ArrayShape).minor_to_major).getD 0 0))
      (fun _ => (0 : Int)) =
    stridedCopyRun (fun v => v)
      (⟨.F32, [2, 2], [0, 1]⟩ : ArrayShape).dims
      (fun _ => (0 : Int)) [1, 2]
      (ComputeShapeStrides (⟨.F32, [2, 2], [0, 1]⟩ : ArrayShape))
      (GetIterationDimensions (⟨.F32, [2, 2], [0, 1]⟩ : ArrayShape).dims
        (⟨.F32, [2, 2], [0, 1]⟩ : ArrayShape).minor_to_major)
      (CreateCopyPartitions 8 (⟨.F32, [2, 2], [0, 1]⟩ : ArrayShape).dims
        ((GetIterationDimensions (⟨.F32, [2, 2], [0, 1]⟩ : ArrayShape).dims
          (⟨.F32, [2, 2], [0, 1]⟩ : ArrayShape).minor_to_major).getD 0 0))
      (fun _ => (0 : Int)) :=
  ⟨⟨by decide, by decide, by decide⟩,
    C7_strided_copy_partition_independence (fun v => v)
      (⟨.F32, [2, 2], [0, 1]⟩ : ArrayShape)
      (fun _ => (0 : Int)) (fun _ => (0 : Int)) [1, 2]
      (by decide) (by decide) (by decide) 1 8⟩
